import Mathlib

/-!
Verification development for the kv-store repository: a bounded LRU cache
with per-entry TTL backed by a segmented write-ahead log (WAL).

The Go source is shallowly embedded:
- Go byte slices and Go strings (which are arbitrary byte sequences) become
  `List Nat` with each element a byte value;
- machine integers become `Nat`/`Int` with explicit `% 2^w` where overflow
  matters (`uint64` sequence numbers, `int32` length prefixes, `int64`
  nanosecond timestamps);
- fallible operations return `Option` or a dedicated result inductive, and
  Go panics are a distinguished result constructor;
- the gob codec is opaque in the source (self-describing, round-tripping,
  stable within a build); it is modelled by an executable length-prefixed
  field-by-field encoder over the record fields in declaration order, and
  CRC-32 (IEEE) is implemented bit-for-bit;
- filesystem directories become association lists from segment id to file
  contents; fallible I/O is driven by explicit oracle flags.
-/

set_option maxHeartbeats 1600000
set_option maxRecDepth 100000

namespace KV

/-! ## Byte-level primitives -/

/-- Bytes of a file, a Go string, or a Go byte slice. -/
abbrev Bytes := List Nat

/-- Little-endian 8-byte encoding of a `uint64` value (gob model). -/
def encodeU64LE (n : Nat) : Bytes :=
  [n % 256, n / 256 % 256, n / 256 ^ 2 % 256, n / 256 ^ 3 % 256,
   n / 256 ^ 4 % 256, n / 256 ^ 5 % 256, n / 256 ^ 6 % 256, n / 256 ^ 7 % 256]

/-- Parse 8 little-endian bytes into a `uint64`, returning the rest. -/
def parseU64 : Bytes → Option (Nat × Bytes)
  | b0 :: b1 :: b2 :: b3 :: b4 :: b5 :: b6 :: b7 :: rest =>
      some (b0 + 256 * b1 + 256 ^ 2 * b2 + 256 ^ 3 * b3 + 256 ^ 4 * b4 +
            256 ^ 5 * b5 + 256 ^ 6 * b6 + 256 ^ 7 * b7, rest)
  | _ => none

/-- Little-endian 4-byte encoding of a nonnegative `int32` value, used for
the record length prefix written by `Append`. -/
def encodeI32LE (n : Nat) : Bytes :=
  [n % 256, n / 256 % 256, n / 256 ^ 2 % 256, n / 256 ^ 3 % 256]

/-- Value of four little-endian bytes read back as a signed `int32`
(two's complement), as `binary.Read` with `binary.LittleEndian` does. -/
def i32FromBytes (b0 b1 b2 b3 : Nat) : Int :=
  let u : Nat := (b0 + 256 * b1 + 256 ^ 2 * b2 + 256 ^ 3 * b3) % 2 ^ 32
  if u < 2 ^ 31 then (u : Int) else (u : Int) - 2 ^ 32

/-- Little-endian 8-byte two's-complement encoding of an `int64` value. -/
def encodeI64LE (i : Int) : Bytes := encodeU64LE (i % (2 ^ 64 : Int)).toNat

/-- Parse 8 little-endian bytes into a signed `int64`. -/
def parseI64 (l : Bytes) : Option (Int × Bytes) :=
  (parseU64 l).map fun (u, rest) =>
    (if u < 2 ^ 63 then (u : Int) else (u : Int) - 2 ^ 64, rest)

/-- Little-endian 4-byte encoding of a `uint32` value (the CRC field). -/
def encodeU32LE (n : Nat) : Bytes :=
  [n % 256, n / 256 % 256, n / 256 ^ 2 % 256, n / 256 ^ 3 % 256]

/-- Parse 4 little-endian bytes into a `uint32`. -/
def parseU32 : Bytes → Option (Nat × Bytes)
  | b0 :: b1 :: b2 :: b3 :: rest =>
      some (b0 + 256 * b1 + 256 ^ 2 * b2 + 256 ^ 3 * b3, rest)
  | _ => none

/-- Take exactly `n` bytes from the front, failing on a short buffer. -/
def parseBytes (n : Nat) (l : Bytes) : Option (Bytes × Bytes) :=
  if l.length < n then none else some (l.take n, l.drop n)

/-! ## CRC-32 (IEEE), reflected form, as `hash/crc32.ChecksumIEEE` -/

/-- Reflected IEEE polynomial used by `crc32.ChecksumIEEE`. -/
def crc32Poly : Nat := 0xEDB88320

/-- One bit step of the reflected CRC-32 computation. -/
def crc32Step (r : Nat) : Nat :=
  if r % 2 = 1 then (r / 2) ^^^ crc32Poly else r / 2

/-- Iterate the bit step `k` times. -/
def crc32Bits : Nat → Nat → Nat
  | 0, r => r
  | k + 1, r => crc32Bits k (crc32Step r)

/-- Fold one input byte into the running CRC register. -/
def crc32Byte (r b : Nat) : Nat := crc32Bits 8 (r ^^^ b % 256)

/-- CRC-32 (IEEE) of a byte sequence. -/
def crc32 (bs : Bytes) : Nat :=
  (bs.foldl crc32Byte 0xFFFFFFFF) ^^^ 0xFFFFFFFF

/-! ## WAL record codec

The Go source serializes `WAL_Entry` with `encoding/gob`, an opaque
self-describing codec over the struct fields in declaration order; the spec
only requires a lossless, build-stable encoding.  The model encodes the
fields in declaration order with fixed-width integers and length-prefixed
byte strings, and the decoder (like `gob.Decoder.Decode`) reads one record
and ignores any trailing bytes of the buffer. -/

/-- EntryType value for SET records. -/
def EntryTypeSET : Nat := 1

/-- EntryType value for DELETE records. -/
def EntryTypeDELETE : Nat := 2

/-- Model of the Go struct `WAL_Entry`.  Go strings are byte sequences, so
`Key` is `Bytes`; `Typ` (the Go field `Type`, renamed because `Type` is a Lean keyword) is a `uint8`, `SequenceNumber` a `uint64`,
`ExpiresAtUnixNano` an `int64`, `CRC` a `uint32`. -/
structure WAL_Entry where
  Typ : Nat
  SequenceNumber : Nat
  Key : Bytes
  Value : Bytes
  ExpiresAtUnixNano : Int
  CRC : Nat
deriving Repr, DecidableEq

/-- Encoding of a `WAL_Entry`: fields in declaration order. -/
def encodeEntry (e : WAL_Entry) : Bytes :=
  [e.Typ] ++ encodeU64LE e.SequenceNumber ++
  encodeU64LE e.Key.length ++ e.Key ++
  encodeU64LE e.Value.length ++ e.Value ++
  encodeI64LE e.ExpiresAtUnixNano ++ encodeU32LE e.CRC

/-- Decode one `WAL_Entry` from the front of a buffer, returning the rest
of the buffer (the decoder does not require the buffer to be exhausted,
matching `gob`). -/
def parseEntry (l : Bytes) : Option (WAL_Entry × Bytes) := do
  match l with
  | [] => none
  | ty :: l1 =>
    let (seq, l2) ← parseU64 l1
    let (klen, l3) ← parseU64 l2
    let (key, l4) ← parseBytes klen l3
    let (vlen, l5) ← parseU64 l4
    let (value, l6) ← parseBytes vlen l5
    let (exp, l7) ← parseI64 l6
    let (crc, l8) ← parseU32 l7
    if ty < 256 ∧ crc < 2 ^ 32 then
      some (⟨ty, seq, key, value, exp, crc⟩, l8)
    else none

/-- Model of `MustUnmarshal`/gob decode applied to a data buffer: `none`
means the decode failed, which panics in the source. -/
def decodeEntry (l : Bytes) : Option WAL_Entry := (parseEntry l).map (·.1)

/-- Model of `calculateCRC`: CRC-32 over the encoding of the entry with its
CRC field zeroed. -/
def calculateCRC (e : WAL_Entry) : Nat := crc32 (encodeEntry { e with CRC := 0 })

/-- Model of `verifyCRC`. -/
def verifyCRC (e : WAL_Entry) : Bool := e.CRC == calculateCRC e

/-- The entry actually written by `Marshal`, which stamps the CRC before
encoding. -/
def withCRC (e : WAL_Entry) : WAL_Entry := { e with CRC := calculateCRC e }

/-- Model of `Marshal`: stamp the CRC, then encode. -/
def Marshal (e : WAL_Entry) : Bytes := encodeEntry (withCRC e)

/-- Well-formedness of an entry as a value of the Go struct: each field is
within the range of its machine type. -/
def WfEntry (e : WAL_Entry) : Prop :=
  e.Typ < 256 ∧ e.SequenceNumber < 2 ^ 64 ∧ e.CRC < 2 ^ 32 ∧
  -(2 ^ 63) ≤ e.ExpiresAtUnixNano ∧ e.ExpiresAtUnixNano < 2 ^ 63 ∧
  e.Key.length < 2 ^ 64 ∧ e.Value.length < 2 ^ 64

instance (e : WAL_Entry) : Decidable (WfEntry e) := by
  unfold WfEntry; infer_instance

/-! ## Segment framing and the segment reader -/

/-- One framed record on disk: little-endian `int32` length prefix followed
by the encoded record bytes. -/
def frameBytes (payload : Bytes) : Bytes := encodeI32LE payload.length ++ payload

/-- Byte contents of a segment holding the given (already CRC-stamped)
records, in order. -/
def encodeStore (es : List WAL_Entry) : Bytes :=
  (es.map fun e => frameBytes (encodeEntry e)).flatten

/-- Outcome of `readSegment` on one segment file.  `hung` is a fuel
artifact of the model and is unreachable from `readSegment`: every loop
iteration that continues consumes at least 4 bytes, so fuel
`bytes.length + 1` always suffices. -/
inductive SegRead where
  | ok (entries : List WAL_Entry)
  | ioError
  | panicked
  | hung
deriving Repr, DecidableEq

/-- Loop of `readSegment`: read a 4-byte length prefix (a clean EOF ends the
segment; a 1-3 byte read is `ErrUnexpectedEOF`, an I/O error), reject a
negative size (`make([]byte, size)` would panic), read exactly `size` bytes
(reading zero of them is `io.EOF` and ends the segment; a short nonempty
read is `ErrUnexpectedEOF`), then gob-decode (a failure panics via
`MustUnmarshal`) and verify the CRC (a mismatch ends the segment). -/
def readSegLoop : Nat → Bytes → List WAL_Entry → SegRead
  | 0, _, _ => .hung
  | _ + 1, [], acc => .ok acc.reverse
  | fuel + 1, b0 :: b1 :: b2 :: b3 :: rest, acc =>
    let size := i32FromBytes b0 b1 b2 b3
    if size < 0 then .panicked
    else
      let n := size.toNat
      if rest.length = 0 ∧ 0 < n then .ok acc.reverse
      else if rest.length < n then .ioError
      else
        match decodeEntry (rest.take n) with
        | none => .panicked
        | some e =>
          if verifyCRC e then readSegLoop fuel (rest.drop n) (e :: acc)
          else .ok acc.reverse
  | _ + 1, _, _ => .ioError

/-- Model of `readSegment` on the byte contents of one segment file. -/
def readSegment (bytes : Bytes) : SegRead := readSegLoop (bytes.length + 1) bytes []

/-! ## The last-sequence-number scan run by `NewWal` -/

/-- Outcome of `getLastSequenceNumberFromFile`.  `hung` is a fuel artifact:
with adversarial negative length prefixes the Go loop can seek backwards
and fail to terminate; it is never produced on the inputs of the theorems
below. -/
inductive LastSeqResult where
  | ok (seq : Nat)
  | ioError
  | panicked
  | hung
deriving Repr, DecidableEq

/-- Byte of a file at an absolute offset (only consulted in range). -/
def byteAt (bytes : Bytes) (pos : Nat) : Nat := bytes.getD pos 0

/-- Loop of `getLastSequenceNumberFromFile`, with the file position kept as
an absolute offset.  Each iteration reads a 4-byte prefix at `pos` (zero
bytes available is `io.EOF`, entering the final-entry read; 1-3 bytes is
`ErrUnexpectedEOF`, an error), then seeks forward by the size (seeking to a
negative absolute position is an error; seeking past EOF succeeds).  The
final-entry read at `offset` allocates `previousSize` bytes (negative size
panics), reads them fully (any short read is an error), and gob-decodes
(failure panics via `MustUnmarshal`). -/
def lastSeqLoop (bytes : Bytes) : Nat → Nat → Nat → Int → LastSeqResult
  | 0, _, _, _ => .hung
  | fuel + 1, pos, offset, prevSize =>
    if bytes.length ≤ pos then
      if offset = 0 then .ok 0
      else if prevSize < 0 then .panicked
      else if bytes.length - offset < prevSize.toNat then .ioError
      else
        match decodeEntry ((bytes.drop offset).take prevSize.toNat) with
        | none => .panicked
        | some e => .ok e.SequenceNumber
    else if bytes.length - pos < 4 then .ioError
    else
      let size := i32FromBytes (byteAt bytes pos) (byteAt bytes (pos + 1))
        (byteAt bytes (pos + 2)) (byteAt bytes (pos + 3))
      if (pos + 4 : Int) + size < 0 then .ioError
      else lastSeqLoop bytes fuel ((pos + 4 : Int) + size).toNat (pos + 4) size

/-- Model of `getLastSequenceNumberFromFile` on the bytes of a segment. -/
def getLastSequenceNumberFromFile (bytes : Bytes) : LastSeqResult :=
  lastSeqLoop bytes (bytes.length + 1) 0 0 0

/-! ## Directories of segments, `NewWal`, `ReadAll` -/

/-- A WAL directory: association of segment id `N` (from the filename
`wal-segment-N`) to the file's byte contents.  Ids are distinct. -/
abbrev Dir := List (Nat × Bytes)

/-- Model of `GetLastSegmentID` over the parsed segment ids: the largest id,
or 0 when there is none. -/
def GetLastSegmentID (ids : List Nat) : Nat := ids.foldl max 0

/-- Contents of the segment with the given id, if present. -/
def dirLookup (d : Dir) (id : Nat) : Option Bytes :=
  (d.find? fun p => p.1 == id).map (·.2)

/-- Outcome of `NewWal`. -/
inductive NewWalResult where
  | ok (activeId : Nat) (lastSeq : Nat)
  | err
  | panicked
  | hung
deriving Repr, DecidableEq

/-- Model of `NewWal`: create the directory (assumed to succeed), glob the
segments; if none exist create segment 0; open the highest-id segment in
append mode at end-of-file, and scan it with
`getLastSequenceNumberFromFile`; any error from the scan fails `NewWal`. -/
def NewWal (d : Dir) : NewWalResult :=
  let lastSegmentId := if d.length > 0 then GetLastSegmentID (d.map (·.1)) else 0
  let d' := if d.length > 0 then d else [(0, [])]
  let contents := (dirLookup d' lastSegmentId).getD []
  match getLastSequenceNumberFromFile contents with
  | .ok n => .ok lastSegmentId n
  | .ioError => .err
  | .panicked => .panicked
  | .hung => .hung

/-- Insertion sort of directory entries by segment id, modelling
`sortSegmentFiles` (ascending id order). -/
def insertById (p : Nat × Bytes) : Dir → Dir
  | [] => [p]
  | q :: t => if p.1 ≤ q.1 then p :: q :: t else q :: insertById p t

/-- Model of `sortSegmentFiles`. -/
def sortSegmentFiles (d : Dir) : Dir :=
  d.foldr insertById []

/-- Outcome of `ReadAll`.  `hung` is a fuel artifact, unreachable from
`ReadAll` (see `SegRead.hung`). -/
inductive ReadAllResult where
  | ok (entries : List WAL_Entry)
  | ioError
  | panicked
  | hung
deriving Repr, DecidableEq

/-- Fold of `ReadAll` over the sorted segments: a segment read error aborts
with an error, a panic propagates, otherwise entries accumulate in
ascending-id order. -/
def readAllLoop : Dir → List WAL_Entry → ReadAllResult
  | [], acc => .ok acc
  | (_, bytes) :: rest, acc =>
    match readSegment bytes with
    | .ok es => readAllLoop rest (acc ++ es)
    | .ioError => .ioError
    | .panicked => .panicked
    | .hung => .hung

/-- Model of `ReadAll` on a directory. -/
def ReadAll (d : Dir) : ReadAllResult := readAllLoop (sortSegmentFiles d) []

/-! ## The LRU cache

The cache stores opaque caller values; the HTTP layer passes strings and
`serializeValue` runs them through gob, so values are modelled as byte
sequences and `serializeValue`/`deserializeValue` as a self-framing
length-prefixed encoding (gob: round-tripping, failing on junk input).

Go's `container/list` element handles are modelled by the key's first
occurrence in the recency list `evictList` (front = MRU): every live map
entry's `element` pointer refers to the most recently pushed list node
holding its key, which sits closest to the front among nodes holding that
key, so `MoveToFront`/`Remove` on the handle act on the first occurrence.
`time.Now()` becomes an explicit `now : Int` (UnixNano); the source reads
the clock twice inside `Set` (expiry, then `createdAt`), modelled as one
instant.  The outcome of `wal.Append` is injected as an `appendOk` flag,
and successful appends are recorded in `walLog` so that theorems can state
that an operation did or did not write to the WAL. -/

/-- Opaque caller value. -/
abbrev Value := Bytes

/-- Model of `serializeValue` (gob encoding of an opaque value). -/
def serializeValue (v : Value) : Bytes := encodeU64LE v.length ++ v

/-- Model of `deserializeValue`; fails on buffers that do not carry a
serialized value. -/
def deserializeValue (bs : Bytes) : Option Value :=
  (parseU64 bs).bind fun (n, rest) =>
    if rest.length < n then none else some (rest.take n)

/-- Model of the Go struct `CacheItem`.  The `element` pointer is
represented by the key's first occurrence in `evictList` (see above). -/
structure CacheItem where
  value : Value
  TTL : Int
  createdAt : Int
deriving Repr, DecidableEq

/-- Lookup in a Go map modelled as an association list. -/
def mapLookup (m : List (String × CacheItem)) (k : String) : Option CacheItem :=
  (m.find? fun p => p.1 == k).map (·.2)

/-- Map assignment `m[k] = v`: replace the binding if present, else add. -/
def mapInsert : List (String × CacheItem) → String → CacheItem → List (String × CacheItem)
  | [], k, v => [(k, v)]
  | (k', v') :: t, k, v =>
      if k' = k then (k, v) :: t else (k', v') :: mapInsert t k v

/-- Map deletion `delete(m, k)` (a no-op when `k` is absent). -/
def mapErase : List (String × CacheItem) → String → List (String × CacheItem)
  | [], _ => []
  | (k', v') :: t, k => if k' = k then t else (k', v') :: mapErase t k

/-- A record as appended to the WAL by the cache (cache-level view). -/
structure WalRec where
  typ : Nat
  key : String
  value : Bytes
  expiresAtUnixNano : Int
deriving Repr, DecidableEq

/-- Model of the Go struct `LRUCache`. -/
structure LRUCache where
  entries : List (String × CacheItem)
  evictList : List String
  capacity : Int
  walEnabled : Bool
  walLog : List WalRec
deriving Repr, DecidableEq

/-- A fresh cache as built by `NewLRUCache` before recovery. -/
def newCache (capacity : Int) (walEnabled : Bool) : LRUCache :=
  ⟨[], [], capacity, walEnabled, []⟩

/-- MoveToFront of the element holding `k` (its first occurrence). -/
def moveToFront (l : List String) (k : String) : List String := k :: l.erase k

/-- Model of `evictLRU`: remove the back list element and delete its key
from the map. -/
def evictLRU (c : LRUCache) : LRUCache :=
  match c.evictList.getLast? with
  | none => c
  | some k =>
      { c with evictList := c.evictList.dropLast,
               entries := mapErase c.entries k }

/-- Model of `LRUCache.Set`.  Serialization always succeeds on opaque
values; the WAL `Append` outcome is `appendOk`.  Returns the new cache and
`none` for an error. -/
def LRUCache.Set (c : LRUCache) (key : String) (value : Value) (ttl : Int)
    (now : Int) (appendOk : Bool) : LRUCache × Option Unit :=
  let expiresAtUnixNano : Int := if ttl > 0 then now + ttl else 0
  if c.walEnabled ∧ ¬appendOk then (c, none)
  else
    let c :=
      if c.walEnabled then
        { c with walLog :=
            c.walLog ++ [⟨EntryTypeSET, key, serializeValue value, expiresAtUnixNano⟩] }
      else c
    match mapLookup c.entries key with
    | some _ =>
        ({ c with entries := mapInsert c.entries key ⟨value, ttl, now⟩,
                  evictList := moveToFront c.evictList key }, some ())
    | none =>
        let c := if (c.entries.length : Int) ≥ c.capacity then evictLRU c else c
        ({ c with entries := mapInsert c.entries key ⟨value, ttl, now⟩,
                  evictList := key :: c.evictList }, some ())

/-- Model of `LRUCache.Get`: TTL check on access (`time.Now().After` is a
strict comparison), lazy removal of an expired entry, move-to-front on a
hit.  Never touches the WAL. -/
def LRUCache.Get (c : LRUCache) (key : String) (now : Int) :
    Option Value × LRUCache :=
  match mapLookup c.entries key with
  | none => (none, c)
  | some entry =>
      if entry.TTL > 0 ∧ now > entry.createdAt + entry.TTL then
        (none, { c with evictList := c.evictList.erase key,
                        entries := mapErase c.entries key })
      else
        (some entry.value, { c with evictList := moveToFront c.evictList key })

/-- Model of `LRUCache.Delete`: success without a WAL write when the key is
absent; otherwise a DELETE record is appended before removal. -/
def LRUCache.Delete (c : LRUCache) (key : String) (appendOk : Bool) :
    LRUCache × Option Unit :=
  match mapLookup c.entries key with
  | none => (c, some ())
  | some _ =>
      if c.walEnabled ∧ ¬appendOk then (c, none)
      else
        let c :=
          if c.walEnabled then
            { c with walLog := c.walLog ++ [⟨EntryTypeDELETE, key, [], 0⟩] }
          else c
        ({ c with evictList := c.evictList.erase key,
                  entries := mapErase c.entries key }, some ())

/-- Replay of one recovered record inside `recoverFromWAL`: a SET skips
expired or undeserializable records, then does a capacity-checked insert at
MRU with NO existing-key check (the newly pushed list node shadows any
older node holding the same key); a DELETE removes the key if present.
When `ExpiresAtUnixNano = 0` the replayed `createdAt` is the zero time,
modelled as 0 (it is never consulted, since the TTL is 0). -/
def replayOne (now : Int) (c : LRUCache) (r : WalRec) : LRUCache :=
  if r.typ = EntryTypeSET then
    if r.expiresAtUnixNano > 0 ∧ now ≥ r.expiresAtUnixNano then c
    else
      match deserializeValue r.value with
      | none => c
      | some value =>
          let ttl : Int := if r.expiresAtUnixNano > 0 then r.expiresAtUnixNano - now else 0
          let createdAt : Int := if r.expiresAtUnixNano > 0 then now else 0
          let c := if (c.entries.length : Int) ≥ c.capacity then evictLRU c else c
          { c with evictList := r.key :: c.evictList,
                   entries := mapInsert c.entries r.key ⟨value, ttl, createdAt⟩ }
  else if r.typ = EntryTypeDELETE then
    match mapLookup c.entries r.key with
    | some _ =>
        { c with evictList := c.evictList.erase r.key,
                 entries := mapErase c.entries r.key }
    | none => c
  else c

/-- Model of `recoverFromWAL`: `now` is captured once, then the recovered
records are replayed in order. -/
def recoverFromWAL (c : LRUCache) (recs : List WalRec) (now : Int) : LRUCache :=
  recs.foldl (replayOne now) c

/-- An entry as it sits in a well-formed segment: machine-representable,
CRC-consistent (as every entry written by `Marshal` is), with an encoding
that fits the `int32` length prefix. -/
def GoodEntry (e : WAL_Entry) : Prop :=
  WfEntry e ∧ verifyCRC e = true ∧ (encodeEntry e).length < 2 ^ 31

instance (e : WAL_Entry) : Decidable (GoodEntry e) := by
  unfold GoodEntry; infer_instance

/-! ## Segment rotation, retention, and the append path

Directories are maintained in ascending segment-id order (as
`sortSegmentFiles` produces and rotation preserves), so retention drops a
prefix of the list. -/

/-- Result of `checkAndRotateSegment`: the directory afterwards, the ids
of the segments deleted by retention in deletion order, and the active
segment id afterwards. -/
structure RotateOut where
  dir : Dir
  removed : List Nat
  newActiveId : Nat
deriving Repr, DecidableEq

/-- Model of `cleanupOldSegments`: nothing is removed while the file count
is below `maxSegments`; otherwise the `L - maxSegments + 1` lowest-id
files are deleted in ascending id order (the loop also stops at the end of
the list, hence the `min`).  Returns the remaining directory and the
removed ids in deletion order. -/
def cleanupOldSegments (files : Dir) (maxSegments : Int) : Dir × List Nat :=
  if (files.length : Int) < maxSegments then (files, [])
  else
    let sortedFiles := sortSegmentFiles files
    let toRemove : Int := (sortedFiles.length : Int) - maxSegments + 1
    let k := min toRemove.toNat sortedFiles.length
    (sortedFiles.drop k, (sortedFiles.take k).map (·.1))

/-- Model of `checkAndRotateSegment`: a no-op while the active segment's
stat size is below `maxFileSize`; otherwise flush/sync/close the active
segment (their failure is injected by `Append`'s oracle), compute
`next_id = max_id + 1` from the PRE-cleanup file list, enforce retention,
and create the new empty active segment. -/
def checkAndRotateSegment (d : Dir) (activeId : Nat) (activeSize : Nat)
    (maxFileSize maxSegments : Int) : RotateOut :=
  if (activeSize : Int) < maxFileSize then ⟨d, [], activeId⟩
  else
    let files := d
    let nextSegmentID :=
      if files.length > 0 then GetLastSegmentID (files.map (·.1)) + 1 else 0
    let cleaned := cleanupOldSegments files maxSegments
    ⟨cleaned.1 ++ [(nextSegmentID, [])], cleaned.2, nextSegmentID⟩

/-- Append the given bytes to the segment with the given id. -/
def dirAppend (d : Dir) (id : Nat) (bs : Bytes) : Dir :=
  d.map fun p => if p.1 = id then (p.1, p.2 ++ bs) else p

/-- Fallible-I/O oracle for one `Append` call: whether gob encoding, the
rotation step, the buffered writes, the flush, and the fsync succeed. -/
structure IOOracle where
  marshalOk : Bool
  rotateOk : Bool
  writeOk : Bool
  flushOk : Bool
  syncOk : Bool
deriving Repr, DecidableEq

/-- WAL state carried by `Append`: directory, active segment id, last
issued sequence number (a `uint64`), and configuration. -/
structure WALState where
  dir : Dir
  activeId : Nat
  lastSequenceNumber : Nat
  forceFSync : Bool
  maxFileSize : Int
  maxSegments : Int
deriving Repr, DecidableEq

/-- Errors surfaced by `Append`. -/
inductive AppendErr where
  | encodeErr
  | rotateErr
  | ioErr
deriving Repr, DecidableEq

/-- Model of `Append`.  The sequence number is incremented FIRST (the
source line `wal.lastSequenceNumber++` runs before any fallible step) and
is never rolled back; the record is built and marshalled, the rotation
check runs, the frame (length prefix plus encoded record) goes through the
buffered writer and is flushed, and under `forceFSync` the segment is
fsynced.  A failing step returns the state reached so far with an error.
A rotation-step I/O failure leaves the directory unmodelled-but-unchanged
here; only the sequence counter matters to the claims below. -/
def Append (w : WALState) (entryType : Nat) (key value : Bytes)
    (expiresAtUnixNano : Int) (oracle : IOOracle) : WALState × Option AppendErr :=
  let w := { w with lastSequenceNumber := (w.lastSequenceNumber + 1) % 2 ^ 64 }
  let entry : WAL_Entry :=
    ⟨entryType, w.lastSequenceNumber, key, value, expiresAtUnixNano, 0⟩
  let data := Marshal entry
  if ¬oracle.marshalOk then (w, some .encodeErr)
  else if ¬oracle.rotateOk then (w, some .rotateErr)
  else
    let activeSize := ((dirLookup w.dir w.activeId).getD []).length
    let rot := checkAndRotateSegment w.dir w.activeId activeSize
      w.maxFileSize w.maxSegments
    let w := { w with dir := rot.dir, activeId := rot.newActiveId }
    if ¬oracle.writeOk then (w, some .ioErr)
    else if ¬oracle.flushOk then (w, some .ioErr)
    else
      let w := { w with dir := dirAppend w.dir w.activeId (frameBytes data) }
      if w.forceFSync ∧ ¬oracle.syncOk then (w, some .ioErr)
      else (w, none)

/-! ## Multi-session trace model (claim C6)

Frame-level view of the WAL: each segment is its list of CRC-stamped
records, and the byte contents of segment `(i, es)` are `encodeStore es`.
The model drives the WAL through whole sessions of successful `Append`
calls over the same directory: `openSys` performs `NewWal`'s state
initialization (its last-sequence read agrees with the byte-level
`getLastSequenceNumberFromFile` on well-formed segments, proved below in
`getLastSequenceNumberFromFile_agrees`), and `appendSys` is the success
path of `Append`.  Directories stay in ascending id order, where the
source's `sortSegmentFiles` is the identity. -/

/-- A directory at frame level: segment id to its records. -/
abbrev FDir := List (Nat × List WAL_Entry)

/-- Byte contents of a frame-level directory. -/
def encodeFDir (segs : FDir) : Dir := segs.map fun q => (q.1, encodeStore q.2)

/-- All records of the directory in ascending-id, in-file order: the full
segment stream. -/
def stream (segs : FDir) : List WAL_Entry := (segs.map (·.2)).flatten

/-- The record sequence numbers of the stream, in on-disk order. -/
def streamSeqs (segs : FDir) : List Nat := (stream segs).map (·.SequenceNumber)

/-- One append request (what the cache passes to `wal.Append`). -/
structure Req where
  typ : Nat
  key : Bytes
  value : Bytes
  expiresAtUnixNano : Int
deriving Repr, DecidableEq

/-- Machine-representable request with bounded key and value sizes (so
that the encoded record fits the `int32` length prefix). -/
def WfReq (r : Req) : Prop :=
  r.typ < 256 ∧ -(2 ^ 63) ≤ r.expiresAtUnixNano ∧ r.expiresAtUnixNano < 2 ^ 63 ∧
  r.key.length ≤ 2 ^ 20 ∧ r.value.length ≤ 2 ^ 20

instance (r : Req) : Decidable (WfReq r) := by
  unfold WfReq; infer_instance

/-- In-memory WAL state of one session at frame level. -/
structure WalSys where
  segs : FDir
  activeId : Nat
  lastSeq : Nat
deriving Repr, DecidableEq

/-- Sequence number of the last record of a segment, 0 when empty (what
the `getLastSequenceNumberFromFile` scan returns on a well-formed file). -/
def lastSeqOfSeg (es : List WAL_Entry) : Nat :=
  match es.getLast? with
  | some e => e.SequenceNumber
  | none => 0

/-- Lookup of a segment's records by id. -/
def fdirLookup (d : FDir) (id : Nat) : Option (List WAL_Entry) :=
  (d.find? fun p => p.1 == id).map (·.2)

/-- Frame-level `NewWal`: enumerate segments (creating segment 0 in an
empty directory), open the highest-id segment, read its last sequence
number. -/
def openSys (segs : FDir) : WalSys :=
  let lastSegmentId :=
    if segs.length > 0 then GetLastSegmentID (segs.map (·.1)) else 0
  let segs' := if segs.length > 0 then segs else [(0, [])]
  ⟨segs', lastSegmentId, lastSeqOfSeg ((fdirLookup segs' lastSegmentId).getD [])⟩

/-- Frame-level `cleanupOldSegments` (the directory is kept ascending, so
the source's sort of the glob list is the identity). -/
def cleanupOldSegmentsF (files : FDir) (maxSegments : Int) : FDir :=
  if (files.length : Int) < maxSegments then files
  else
    let toRemove : Int := (files.length : Int) - maxSegments + 1
    let k := min toRemove.toNat files.length
    files.drop k

/-- Frame-level `checkAndRotateSegment`: the stat size of the active file
is the byte length of its encoded records (every `Append` flushes, so the
on-disk size is current). -/
def checkAndRotateSegmentF (segs : FDir) (activeId : Nat)
    (maxFileSize maxSegments : Int) : FDir × Nat :=
  let activeSize := (encodeStore ((fdirLookup segs activeId).getD [])).length
  if (activeSize : Int) < maxFileSize then (segs, activeId)
  else
    let nextSegmentID :=
      if segs.length > 0 then GetLastSegmentID (segs.map (·.1)) + 1 else 0
    (cleanupOldSegmentsF segs maxSegments ++ [(nextSegmentID, [])], nextSegmentID)

/-- Append one record to the segment with the given id. -/
def fdirAppend (segs : FDir) (id : Nat) (e : WAL_Entry) : FDir :=
  segs.map fun p => if p.1 = id then (p.1, p.2 ++ [e]) else p

/-- Success path of `Append` at frame level: assign `last_seq + 1` (a
`uint64`), build and CRC-stamp the record, run the rotation check, write
the frame to the active segment. -/
def appendSys (maxFileSize maxSegments : Int) (sys : WalSys) (r : Req) : WalSys :=
  let seq := (sys.lastSeq + 1) % 2 ^ 64
  let entry := withCRC ⟨r.typ, seq, r.key, r.value, r.expiresAtUnixNano, 0⟩
  let rot := checkAndRotateSegmentF sys.segs sys.activeId maxFileSize maxSegments
  ⟨fdirAppend rot.1 rot.2 entry, rot.2, seq⟩

/-- One Open/Append*/Close session over the directory (Close flushes, so
at frame level it leaves the directory as is). -/
def runSession (maxFileSize maxSegments : Int) (segs : FDir)
    (reqs : List Req) : FDir :=
  (reqs.foldl (appendSys maxFileSize maxSegments) (openSys segs)).segs

/-- A whole trace of sessions over the same directory, starting empty. -/
def runTrace (maxFileSize maxSegments : Int) (sessions : List (List Req)) : FDir :=
  sessions.foldl (runSession maxFileSize maxSegments) []

/-- Directory invariant carried across sessions: ids strictly ascending,
the stream's sequence numbers strictly increasing, every record
well-formed with a valid CRC, every sequence number in `[1, A]` (where
`A` bounds the number of appends so far), and a nonempty stream lives in
a nonempty last segment. -/
def DirInv (A : Nat) (segs : FDir) : Prop :=
  List.Chain' (fun p q => p.1 < q.1) segs ∧
  List.Chain' (· < ·) (streamSeqs segs) ∧
  (∀ e ∈ stream segs, GoodEntry e) ∧
  (∀ e ∈ stream segs, 1 ≤ e.SequenceNumber ∧ e.SequenceNumber ≤ A) ∧
  (∀ p, segs.getLast? = some p → stream segs ≠ [] → p.2 ≠ [])

/-- In-session invariant: the directory invariant, plus the active segment
is the last (highest-id) one and `lastSeq` bounds every stored sequence
number. -/
def SysInv (A : Nat) (sys : WalSys) : Prop :=
  DirInv A sys.segs ∧
  sys.segs ≠ [] ∧
  (∀ p, sys.segs.getLast? = some p → sys.activeId = p.1) ∧
  (∀ e ∈ stream sys.segs, e.SequenceNumber ≤ sys.lastSeq) ∧
  sys.lastSeq ≤ A

/-! # Theorems -/

/-! ## Codec round-trip lemmas -/

theorem parseU64_encodeU64LE (n : Nat) (r : Bytes) :
    parseU64 (encodeU64LE n ++ r) = some (n % 2 ^ 64, r) := by
  simp only [encodeU64LE, List.cons_append, List.nil_append, parseU64,
    Option.some.injEq, Prod.mk.injEq, and_true]
  omega

theorem parseU64_encodeU64LE_of_lt (n : Nat) (h : n < 2 ^ 64) :
    ∀ r : Bytes, parseU64 (encodeU64LE n ++ r) = some (n, r) := by
  intro r
  rw [parseU64_encodeU64LE, Nat.mod_eq_of_lt h]

theorem parseU32_encodeU32LE_of_lt (n : Nat) (h : n < 2 ^ 32) :
    ∀ r : Bytes, parseU32 (encodeU32LE n ++ r) = some (n, r) := by
  intro r
  simp only [encodeU32LE, List.cons_append, List.nil_append, parseU32,
    Option.some.injEq, Prod.mk.injEq, and_true]
  omega

theorem parseI64_encodeI64LE (i : Int) (h1 : -(2 ^ 63) ≤ i) (h2 : i < 2 ^ 63) :
    ∀ r : Bytes, parseI64 (encodeI64LE i ++ r) = some (i, r) := by
  intro r
  have hnn : (0 : Int) ≤ i % (2 ^ 64 : Int) := Int.emod_nonneg i (by norm_num)
  have hub : i % (2 ^ 64 : Int) < 2 ^ 64 := Int.emod_lt_of_pos i (by norm_num)
  rw [encodeI64LE, parseI64, parseU64_encodeU64LE]
  have hmod : (i % (2 ^ 64 : Int)).toNat % 2 ^ 64 = (i % (2 ^ 64 : Int)).toNat := by
    apply Nat.mod_eq_of_lt
    omega
  rw [hmod, Option.map_some']
  dsimp only
  by_cases hlt : (i % (2 ^ 64 : Int)).toNat < 2 ^ 63
  · rw [if_pos hlt]
    simp only [Option.some.injEq, Prod.mk.injEq, and_true]
    omega
  · rw [if_neg hlt]
    simp only [Option.some.injEq, Prod.mk.injEq, and_true]
    omega

theorem parseBytes_exact (xs r : Bytes) :
    parseBytes xs.length (xs ++ r) = some (xs, r) := by
  simp [parseBytes, List.take_left, List.drop_left]

theorem parseEntry_encodeEntry (e : WAL_Entry) (r : Bytes) (h : WfEntry e) :
    parseEntry (encodeEntry e ++ r) = some (e, r) := by
  obtain ⟨h1, h2, h3, h4, h5, h6, h7⟩ := h
  rw [encodeEntry]
  simp only [List.append_assoc, List.cons_append]
  rw [parseEntry]
  simp only [List.nil_append, Option.bind_eq_bind,
    parseU64_encodeU64LE_of_lt e.SequenceNumber h2,
    parseU64_encodeU64LE_of_lt e.Key.length h6,
    parseU64_encodeU64LE_of_lt e.Value.length h7,
    parseBytes_exact, parseI64_encodeI64LE e.ExpiresAtUnixNano h4 h5,
    parseU32_encodeU32LE_of_lt e.CRC h3, Option.some_bind]
  simp only [h1, true_and, if_pos h3]

theorem decodeEntry_encodeEntry (e : WAL_Entry) (h : WfEntry e) :
    decodeEntry (encodeEntry e) = some e := by
  rw [decodeEntry, ← List.append_nil (encodeEntry e), parseEntry_encodeEntry e [] h]
  rfl

theorem length_encodeEntry (e : WAL_Entry) :
    (encodeEntry e).length = 37 + e.Key.length + e.Value.length := by
  simp [encodeEntry, encodeU64LE, encodeI64LE, encodeU32LE]
  omega

/-! ## CRC-32 range -/

theorem crc32Step_lt (r : Nat) (h : r < 2 ^ 32) : crc32Step r < 2 ^ 32 := by
  rw [crc32Step]
  split
  · exact Nat.xor_lt_two_pow (by omega) (by norm_num [crc32Poly])
  · omega

theorem crc32Bits_lt (k r : Nat) (h : r < 2 ^ 32) : crc32Bits k r < 2 ^ 32 := by
  induction k generalizing r with
  | zero => exact h
  | succ k ih => exact ih _ (crc32Step_lt r h)

theorem crc32Byte_lt (r b : Nat) (h : r < 2 ^ 32) : crc32Byte r b < 2 ^ 32 := by
  refine crc32Bits_lt 8 _ (Nat.xor_lt_two_pow h ?_)
  calc b % 256 < 256 := Nat.mod_lt _ (by norm_num)
    _ ≤ 2 ^ 32 := by norm_num

theorem crc32_foldl_lt (bs : Bytes) (r : Nat) (h : r < 2 ^ 32) :
    bs.foldl crc32Byte r < 2 ^ 32 := by
  induction bs generalizing r with
  | nil => exact h
  | cons b t ih => exact ih _ (crc32Byte_lt r b h)

theorem crc32_lt (bs : Bytes) : crc32 bs < 2 ^ 32 :=
  Nat.xor_lt_two_pow (crc32_foldl_lt bs _ (by norm_num)) (by norm_num)

theorem calculateCRC_lt (e : WAL_Entry) : calculateCRC e < 2 ^ 32 := crc32_lt _

theorem wfEntry_withCRC (e : WAL_Entry) (h : WfEntry e) : WfEntry (withCRC e) := by
  obtain ⟨h1, h2, h3, h4, h5, h6, h7⟩ := h
  exact ⟨h1, h2, calculateCRC_lt e, h4, h5, h6, h7⟩

theorem calculateCRC_withCRC (e : WAL_Entry) :
    calculateCRC (withCRC e) = calculateCRC e := by
  cases e
  rfl

theorem verifyCRC_withCRC (e : WAL_Entry) : verifyCRC (withCRC e) = true := by
  have h1 : (withCRC e).CRC = calculateCRC e := by cases e; rfl
  rw [verifyCRC, h1, calculateCRC_withCRC, beq_self_eq_true]

/-! ## Segment-reader lemmas -/

theorem i32FromBytes_digits (n : Nat) (h : n < 2 ^ 31) :
    i32FromBytes (n % 256) (n / 256 % 256) (n / 256 ^ 2 % 256) (n / 256 ^ 3 % 256) =
      (n : Int) := by
  simp only [i32FromBytes]
  have hu : (n % 256 + 256 * (n / 256 % 256) + 256 ^ 2 * (n / 256 ^ 2 % 256) +
      256 ^ 3 * (n / 256 ^ 3 % 256)) % 2 ^ 32 = n := by omega
  rw [hu, if_pos h]

theorem readSegLoop_frame_cons (e : WAL_Entry) (t : Bytes) (acc : List WAL_Entry)
    (f : Nat) (hwf : WfEntry e) (hlen : (encodeEntry e).length < 2 ^ 31) :
    readSegLoop (f + 1) (frameBytes (encodeEntry e) ++ t) acc =
      if verifyCRC e then readSegLoop f t (e :: acc) else .ok acc.reverse := by
  have hge : 37 ≤ (encodeEntry e).length := by rw [length_encodeEntry]; omega
  have hshape : frameBytes (encodeEntry e) ++ t =
      (encodeEntry e).length % 256 :: (encodeEntry e).length / 256 % 256 ::
      (encodeEntry e).length / 256 ^ 2 % 256 :: (encodeEntry e).length / 256 ^ 3 % 256 ::
        (encodeEntry e ++ t) := by
    simp [frameBytes, encodeI32LE]
  rw [hshape]
  simp only [readSegLoop, i32FromBytes_digits _ hlen, Int.toNat_natCast]
  rw [if_neg (show ¬((List.length (encodeEntry e) : Int) < 0) by omega)]
  rw [if_neg (show ¬(List.length (encodeEntry e ++ t) = 0 ∧
      0 < List.length (encodeEntry e)) by rw [List.length_append]; omega)]
  rw [if_neg (show ¬(List.length (encodeEntry e ++ t) < List.length (encodeEntry e)) by
      rw [List.length_append]; omega)]
  rw [List.take_left, List.drop_left]
  rw [decodeEntry_encodeEntry e hwf]

theorem readSegLoop_store (es : List WAL_Entry) (t : Bytes) (acc : List WAL_Entry)
    (f : Nat) (h : ∀ e ∈ es, GoodEntry e) :
    readSegLoop (es.length + f) (encodeStore es ++ t) acc =
      readSegLoop f t (es.reverse ++ acc) := by
  induction es generalizing acc with
  | nil => simp [encodeStore]
  | cons e es' ih =>
      obtain ⟨hwf, hcrc, hlen⟩ := h e (by simp)
      rw [encodeStore, List.map_cons, List.flatten_cons, List.append_assoc]
      rw [show (e :: es').length + f = (es'.length + f) + 1 by simp; omega]
      rw [readSegLoop_frame_cons e _ acc (es'.length + f) hwf hlen, if_pos hcrc]
      rw [show (List.map (fun e => frameBytes (encodeEntry e)) es').flatten ++ t =
        encodeStore es' ++ t from rfl]
      rw [ih (e :: acc) (fun x hx => h x (by simp [hx]))]
      simp

theorem encodeStore_cons (e : WAL_Entry) (es : List WAL_Entry) :
    encodeStore (e :: es) = frameBytes (encodeEntry e) ++ encodeStore es := by
  rw [encodeStore, List.map_cons, List.flatten_cons]
  rfl

theorem length_encodeStore_ge (es : List WAL_Entry) :
    es.length ≤ (encodeStore es).length := by
  induction es with
  | nil => simp [encodeStore]
  | cons e es' ih =>
      rw [encodeStore_cons, List.length_append, List.length_cons]
      have h1 : 1 ≤ (frameBytes (encodeEntry e)).length := by
        simp [frameBytes, encodeI32LE]
      omega

theorem readSegment_encodeStore (es : List WAL_Entry) (h : ∀ e ∈ es, GoodEntry e) :
    readSegment (encodeStore es) = .ok es := by
  have hge := length_encodeStore_ge es
  rw [readSegment]
  rw [show (encodeStore es).length + 1 =
    es.length + (((encodeStore es).length - es.length) + 1) by omega]
  rw [← List.append_nil (encodeStore es)]
  rw [readSegLoop_store es [] [] _ h]
  simp [readSegLoop]

theorem readSegment_store_badcrc (es : List WAL_Entry) (bad : WAL_Entry)
    (junk : Bytes) (h : ∀ e ∈ es, GoodEntry e) (hwf : WfEntry bad)
    (hlen : (encodeEntry bad).length < 2 ^ 31) (hcrc : verifyCRC bad = false) :
    readSegment (encodeStore es ++ (frameBytes (encodeEntry bad) ++ junk)) = .ok es := by
  have hge := length_encodeStore_ge es
  have hfr : 4 ≤ (frameBytes (encodeEntry bad)).length := by
    simp [frameBytes, encodeI32LE]
  rw [readSegment]
  rw [show (encodeStore es ++ (frameBytes (encodeEntry bad) ++ junk)).length + 1 =
    es.length + ((((encodeStore es ++ (frameBytes (encodeEntry bad) ++ junk)).length -
      es.length)) + 1) by simp only [List.length_append]; omega]
  rw [readSegLoop_store es _ [] _ h]
  rw [readSegLoop_frame_cons bad junk _ _ hwf hlen, if_neg (by simp [hcrc])]
  simp

theorem readAllLoop_forall2 (d : Dir) (ress : List (List WAL_Entry))
    (acc : List WAL_Entry)
    (h : List.Forall₂ (fun p es => readSegment p.2 = SegRead.ok es) d ress) :
    readAllLoop d acc = .ok (acc ++ ress.flatten) := by
  induction h generalizing acc with
  | nil => simp [readAllLoop]
  | @cons p es t1 t2 hpe hrest ih =>
      obtain ⟨i, bytes⟩ := p
      rw [readAllLoop, hpe]
      dsimp only
      rw [ih (acc ++ es)]
      simp

theorem insertById_of_le (p : Nat × Bytes) (d : Dir) (h : ∀ q ∈ d, p.1 ≤ q.1) :
    insertById p d = p :: d := by
  cases d with
  | nil => rfl
  | cons q t => rw [insertById, if_pos (h q (by simp))]

theorem sortSegmentFiles_of_sorted (d : Dir)
    (h : List.Pairwise (fun a b => a.1 ≤ b.1) d) : sortSegmentFiles d = d := by
  induction d with
  | nil => rfl
  | cons p t ih =>
      rw [List.pairwise_cons] at h
      rw [sortSegmentFiles, List.foldr_cons]
      rw [show List.foldr insertById [] t = sortSegmentFiles t from rfl, ih h.2]
      exact insertById_of_le p t fun q hq => h.1 q hq

/-! ## Last-sequence-number scan lemmas -/

theorem byteAt_drop (bytes : Bytes) (pos i : Nat) :
    byteAt bytes (pos + i) = (bytes.drop pos).getD i 0 := by
  simp [byteAt, List.getD_eq_getElem?_getD, List.getElem?_drop]

theorem lastSeqLoop_skip_frame (bytes : Bytes) (pos off : Nat) (psz : Int) (f : Nat)
    (payload t : Bytes) (hdrop : bytes.drop pos = frameBytes payload ++ t)
    (hlen : payload.length < 2 ^ 31) :
    lastSeqLoop bytes (f + 1) pos off psz =
      lastSeqLoop bytes f (pos + 4 + payload.length) (pos + 4) (payload.length : Int) := by
  have hlen4 : bytes.length - pos = 4 + payload.length + t.length ∧ pos ≤ bytes.length := by
    have h := congrArg List.length hdrop
    simp only [List.length_drop, List.length_append, frameBytes, encodeI32LE,
      List.length_cons, List.length_nil] at h
    omega
  have h0 : byteAt bytes pos = payload.length % 256 := by
    have h := byteAt_drop bytes pos 0
    rw [Nat.add_zero] at h
    rw [h, hdrop]
    simp [frameBytes, encodeI32LE]
  have h1 : byteAt bytes (pos + 1) = payload.length / 256 % 256 := by
    rw [byteAt_drop, hdrop]
    simp [frameBytes, encodeI32LE]
  have h2 : byteAt bytes (pos + 2) = payload.length / 256 ^ 2 % 256 := by
    rw [byteAt_drop, hdrop]
    simp [frameBytes, encodeI32LE]
  have h3 : byteAt bytes (pos + 3) = payload.length / 256 ^ 3 % 256 := by
    rw [byteAt_drop, hdrop]
    simp [frameBytes, encodeI32LE]
  simp only [lastSeqLoop, h0, h1, h2, h3, i32FromBytes_digits payload.length hlen]
  rw [if_neg (show ¬bytes.length ≤ pos by omega)]
  rw [if_neg (show ¬bytes.length - pos < 4 by omega)]
  rw [if_neg (show ¬((pos + 4 : Int) + (payload.length : Int) < 0) by omega)]
  rw [show ((pos + 4 : Int) + (payload.length : Int)).toNat = pos + 4 + payload.length
    by omega]

theorem lastSeqLoop_clean_store (es : List WAL_Entry) (bytes : Bytes)
    (pos off : Nat) (psz : Int) (f : Nat) (hne : es ≠ [])
    (hf : es.length + 1 ≤ f)
    (hdrop : bytes.drop pos = encodeStore es)
    (hwf : ∀ e ∈ es, WfEntry e ∧ (encodeEntry e).length < 2 ^ 31) :
    lastSeqLoop bytes f pos off psz = .ok (es.getLast hne).SequenceNumber := by
  induction es generalizing pos off psz f with
  | nil => exact absurd rfl hne
  | cons e es' ih =>
      obtain ⟨hewf, helen⟩ := hwf e (by simp)
      obtain ⟨f', rfl⟩ : ∃ f', f = f' + 1 := ⟨f - 1, by omega⟩
      rw [encodeStore_cons] at hdrop
      rw [lastSeqLoop_skip_frame bytes pos off psz f' (encodeEntry e)
        (encodeStore es') hdrop helen]
      have hlenfacts : bytes.length - pos =
          4 + (encodeEntry e).length + (encodeStore es').length ∧ pos ≤ bytes.length := by
        have h := congrArg List.length hdrop
        simp only [List.length_drop, List.length_append, frameBytes, encodeI32LE,
          List.length_cons, List.length_nil] at h
        omega
      have hdrop2 : bytes.drop (pos + 4 + (encodeEntry e).length) = encodeStore es' := by
        have hR : (frameBytes (encodeEntry e) ++ encodeStore es').drop
            (4 + (encodeEntry e).length) = encodeStore es' := by
          rw [show (4 : Nat) + (encodeEntry e).length =
            (frameBytes (encodeEntry e)).length from by
              simp only [frameBytes, encodeI32LE, List.length_append,
                List.length_cons, List.length_nil]
              try omega]
          exact List.drop_left _ _
        have h := congrArg (List.drop (4 + (encodeEntry e).length)) hdrop
        rw [List.drop_drop, hR] at h
        convert h using 2 <;> omega
      by_cases hes' : es' = []
      · subst hes'
        have hlen1 : bytes.length = pos + 4 + (encodeEntry e).length := by
          have h2 : (encodeStore ([] : List WAL_Entry)).length = 0 := by
            simp [encodeStore]
          omega
        obtain ⟨f'', rfl⟩ : ∃ f'', f' = f'' + 1 := ⟨f' - 1, by simp only [List.length_cons, List.length_nil] at hf; omega⟩
        rw [lastSeqLoop]
        rw [if_pos (show bytes.length ≤ pos + 4 + (encodeEntry e).length by omega)]
        rw [if_neg (show ¬pos + 4 = 0 by omega)]
        rw [if_neg (show ¬((encodeEntry e).length : Int) < 0 by omega)]
        rw [if_neg (show ¬bytes.length - (pos + 4) <
          ((encodeEntry e).length : Int).toNat by omega)]
        have hdrop3 : bytes.drop (pos + 4) = encodeEntry e := by
          have hR : (frameBytes (encodeEntry e) ++
              encodeStore ([] : List WAL_Entry)).drop 4 = encodeEntry e := by
            simp [frameBytes, encodeI32LE, encodeStore]
          have h4 := congrArg (List.drop 4) hdrop
          rw [List.drop_drop, hR] at h4
          convert h4 using 2 <;> omega
        rw [hdrop3]
        rw [show ((encodeEntry e).length : Int).toNat = (encodeEntry e).length by omega]
        rw [List.take_length, decodeEntry_encodeEntry e hewf]
        simp
      · rw [show (e :: es').getLast hne = es'.getLast hes' from List.getLast_cons hes']
        exact ih (pos + 4 + (encodeEntry e).length) (pos + 4)
          ((encodeEntry e).length : Int) f' hes'
          (by simp only [List.length_cons] at hf; omega) hdrop2
          (fun x hx => hwf x (by simp [hx]))

theorem lastSeqLoop_torn (es : List WAL_Entry) (bytes : Bytes) (payload : Bytes)
    (m : Nat) (pos off : Nat) (psz : Int) (f : Nat)
    (hf : es.length + 2 ≤ f)
    (hdrop : bytes.drop pos = encodeStore es ++ (frameBytes payload).take m)
    (hm0 : 0 < m) (hmlt : m < 4 + payload.length)
    (hplen : payload.length < 2 ^ 31)
    (hwf : ∀ e ∈ es, (encodeEntry e).length < 2 ^ 31) :
    lastSeqLoop bytes f pos off psz = .ioError := by
  induction es generalizing pos off psz f with
  | nil =>
      rw [show encodeStore [] ++ (frameBytes payload).take m =
        (frameBytes payload).take m by simp [encodeStore]] at hdrop
      have hlenfacts : bytes.length - pos = m ∧ pos ≤ bytes.length := by
        have h := congrArg List.length hdrop
        simp only [List.length_drop, List.length_take, frameBytes, encodeI32LE,
          List.length_append, List.length_cons, List.length_nil] at h
        omega
      obtain ⟨f', rfl⟩ : ∃ f', f = f' + 1 := ⟨f - 1, by omega⟩
      by_cases hm4 : m < 4
      · rw [lastSeqLoop]
        rw [if_neg (show ¬bytes.length ≤ pos by omega)]
        rw [if_pos (show bytes.length - pos < 4 by omega)]
      · have htake : (frameBytes payload).take m =
            encodeI32LE payload.length ++ payload.take (m - 4) := by
          rw [frameBytes, show m = (encodeI32LE payload.length).length + (m - 4)
            by simp [encodeI32LE]; omega]
          rw [List.take_append]
          rw [show (encodeI32LE payload.length).length + (m - 4) - 4 = m - 4 from by
            simp only [encodeI32LE, List.length_cons, List.length_nil]
            omega]
        rw [htake] at hdrop
        have h0 : byteAt bytes pos = payload.length % 256 := by
          have h := byteAt_drop bytes pos 0
          rw [Nat.add_zero] at h
          rw [h, hdrop]
          simp [encodeI32LE]
        have h1 : byteAt bytes (pos + 1) = payload.length / 256 % 256 := by
          rw [byteAt_drop, hdrop]
          simp [encodeI32LE]
        have h2 : byteAt bytes (pos + 2) = payload.length / 256 ^ 2 % 256 := by
          rw [byteAt_drop, hdrop]
          simp [encodeI32LE]
        have h3 : byteAt bytes (pos + 3) = payload.length / 256 ^ 3 % 256 := by
          rw [byteAt_drop, hdrop]
          simp [encodeI32LE]
        simp only [lastSeqLoop, h0, h1, h2, h3,
          i32FromBytes_digits payload.length hplen]
        rw [if_neg (show ¬bytes.length ≤ pos by omega)]
        rw [if_neg (show ¬bytes.length - pos < 4 by omega)]
        rw [if_neg (show ¬((pos + 4 : Int) + (payload.length : Int) < 0) by omega)]
        rw [show ((pos + 4 : Int) + (payload.length : Int)).toNat =
          pos + 4 + payload.length by omega]
        obtain ⟨f'', rfl⟩ : ∃ f'', f' = f'' + 1 := ⟨f' - 1, by simp only [List.length_cons, List.length_nil] at hf; omega⟩
        rw [lastSeqLoop]
        rw [if_pos (show bytes.length ≤ pos + 4 + payload.length by omega)]
        rw [if_neg (show ¬pos + 4 = 0 by omega)]
        rw [if_neg (show ¬(payload.length : Int) < 0 by omega)]
        rw [if_pos (show bytes.length - (pos + 4) < ((payload.length : Int)).toNat
          by omega)]
  | cons e es' ih =>
      obtain ⟨f', rfl⟩ : ∃ f', f = f' + 1 := ⟨f - 1, by omega⟩
      rw [encodeStore_cons, List.append_assoc] at hdrop
      rw [lastSeqLoop_skip_frame bytes pos off psz f' (encodeEntry e)
        (encodeStore es' ++ (frameBytes payload).take m) hdrop (hwf e (by simp))]
      have hdrop2 : bytes.drop (pos + 4 + (encodeEntry e).length) =
          encodeStore es' ++ (frameBytes payload).take m := by
        have hR : (frameBytes (encodeEntry e) ++
            (encodeStore es' ++ (frameBytes payload).take m)).drop
            (4 + (encodeEntry e).length) =
            encodeStore es' ++ (frameBytes payload).take m := by
          rw [show (4 : Nat) + (encodeEntry e).length =
            (frameBytes (encodeEntry e)).length from by
              simp only [frameBytes, encodeI32LE, List.length_append,
                List.length_cons, List.length_nil]
              try omega]
          exact List.drop_left _ _
        have h := congrArg (List.drop (4 + (encodeEntry e).length)) hdrop
        rw [List.drop_drop, hR] at h
        convert h using 2 <;> omega
      exact ih (pos + 4 + (encodeEntry e).length) (pos + 4)
        ((encodeEntry e).length : Int) f'
        (by simp only [List.length_cons] at hf; omega) hdrop2
        (fun x hx => hwf x (by simp [hx]))

theorem getLastSequenceNumberFromFile_encodeStore (es : List WAL_Entry)
    (hne : es ≠ []) (hwf : ∀ e ∈ es, WfEntry e ∧ (encodeEntry e).length < 2 ^ 31) :
    getLastSequenceNumberFromFile (encodeStore es) =
      .ok (es.getLast hne).SequenceNumber := by
  have hge := length_encodeStore_ge es
  exact lastSeqLoop_clean_store es (encodeStore es) 0 0 0 _ hne (by omega)
    (by simp) hwf

theorem getLastSequenceNumberFromFile_nil :
    getLastSequenceNumberFromFile [] = .ok 0 := rfl

theorem getLastSequenceNumberFromFile_torn (es : List WAL_Entry) (payload : Bytes)
    (m : Nat) (hm0 : 0 < m) (hmlt : m < 4 + payload.length)
    (hplen : payload.length < 2 ^ 31)
    (hwf : ∀ e ∈ es, (encodeEntry e).length < 2 ^ 31) :
    getLastSequenceNumberFromFile
      (encodeStore es ++ (frameBytes payload).take m) = .ioError := by
  have hge := length_encodeStore_ge es
  have hmlen : ((frameBytes payload).take m).length = m := by
    simp only [List.length_take, frameBytes, encodeI32LE, List.length_append,
      List.length_cons, List.length_nil]
    omega
  refine lastSeqLoop_torn es _ payload m 0 0 0 _ ?_ (by simp) hm0 hmlt hplen hwf
  simp only [List.length_append, hmlen]
  omega

/-- Claim C1 (counterexample): the claim says Open succeeds on a directory
whose highest-id segment ends in a torn tail.  Truncating the last byte of
a one-record segment makes `NewWal` fail: the last-sequence-number scan
hits a short body read, `io.ReadFull` reports `ErrUnexpectedEOF` (not
`io.EOF`), and `getLastSequenceNumberFromFile` returns that error to
`NewWal`. -/
theorem claim_C1_counterexample :
    NewWal [(0, (frameBytes (Marshal ⟨1, 1, [107], [1], 0, 0⟩)).dropLast)] = .err := by
  rfl

/-- Claim C1 (amended): Open FAILS (returns an error) on every WAL
directory whose highest-id segment ends in a torn tail — a short length
prefix or a short record body after any number of intact frames.
`ReadAll` is never reached; recovery does not replay anything.  (The
graceful torn-tail handling the claim describes exists only inside
`readSegment`, which `NewWal` runs after — and here instead of — the
failing scan.) -/
theorem claim_C1_amended_open_fails_on_torn_tail
    (d : Dir) (hid : Nat) (es : List WAL_Entry) (payload : Bytes) (m : Nat)
    (hne : d.length > 0)
    (hmax : GetLastSegmentID (d.map (·.1)) = hid)
    (hcontents : dirLookup d hid =
      some (encodeStore es ++ (frameBytes payload).take m))
    (hm0 : 0 < m) (hmlt : m < 4 + payload.length)
    (hplen : payload.length < 2 ^ 31)
    (hwf : ∀ e ∈ es, (encodeEntry e).length < 2 ^ 31) :
    NewWal d = .err := by
  simp only [NewWal, if_pos hne, hmax, hcontents, Option.getD_some]
  rw [getLastSequenceNumberFromFile_torn es payload m hm0 hmlt hplen hwf]

/-- Witness for the amended claim C1: a directory whose single segment is
a torn two-byte length prefix. -/
theorem claim_C1_amended_witness :
    NewWal [(0, encodeStore [] ++ (frameBytes [5, 6, 7]).take 2)] = .err := by
  refine claim_C1_amended_open_fails_on_torn_tail
    [(0, encodeStore [] ++ (frameBytes [5, 6, 7]).take 2)] 0 [] [5, 6, 7] 2
    (by decide) (by decide) rfl (by decide) (by decide) (by decide) ?_
  intro e he
  simp at he

theorem forall2_append_kv {R : (Nat × Bytes) → List WAL_Entry → Prop}
    {l1 u1 : Dir} {l2 u2 : List (List WAL_Entry)}
    (h1 : List.Forall₂ R l1 l2) (h2 : List.Forall₂ R u1 u2) :
    List.Forall₂ R (l1 ++ u1) (l2 ++ u2) := by
  induction h1 with
  | nil => simpa using h2
  | cons hab _ ih => exact List.Forall₂.cons hab ih

theorem forall2_encoded (segs : List (Nat × List WAL_Entry))
    (h : ∀ p ∈ segs, ∀ e ∈ p.2, GoodEntry e) :
    List.Forall₂ (fun p es => readSegment p.2 = SegRead.ok es)
      (segs.map fun q => (q.1, encodeStore q.2)) (segs.map (·.2)) := by
  induction segs with
  | nil => constructor
  | cons q t ih =>
      constructor
      · exact readSegment_encodeStore q.2 (h q (by simp))
      · exact ih fun p hp => h p (by simp [hp])

/-! ## Claims C1 and C2: torn tails and corrupt records -/

/-- Claim C2 (counterexample): the claim says a structural decode failure
on a framed record ends reading of that segment only and `ReadAll` returns
normally.  A framed record whose body fails to decode (here a zero-length
body, on which gob decode fails) makes `MustUnmarshal` panic, so `ReadAll`
panics and the records of the remaining segments are never yielded. -/
theorem claim_C2_counterexample :
    ReadAll [(0, [0, 0, 0, 0]),
             (1, encodeStore [withCRC ⟨1, 1, [107], [1], 0, 0⟩])] = .panicked := by
  rfl

/-- Claim C2 (amended): during `ReadAll`, a CRC MISMATCH on a framed
record ends reading of that segment only: `ReadAll` returns normally and
yields the records of all remaining segments in ascending-id order.  (A
structural decode failure, by contrast, panics via `MustUnmarshal`; and a
short body read aborts `ReadAll` with an error.) -/
theorem claim_C2_amended_crc_mismatch_ends_segment_only
    (pre post : List (Nat × List WAL_Entry)) (i : Nat) (es : List WAL_Entry)
    (bad : WAL_Entry) (junk : Bytes)
    (hpre : ∀ p ∈ pre, ∀ e ∈ p.2, GoodEntry e)
    (hes : ∀ e ∈ es, GoodEntry e)
    (hpost : ∀ p ∈ post, ∀ e ∈ p.2, GoodEntry e)
    (hbadwf : WfEntry bad) (hbadlen : (encodeEntry bad).length < 2 ^ 31)
    (hbadcrc : verifyCRC bad = false)
    (hsorted : List.Pairwise (fun a b => a.1 ≤ b.1)
      ((pre.map fun q => (q.1, encodeStore q.2)) ++
        (i, encodeStore es ++ (frameBytes (encodeEntry bad) ++ junk)) ::
        (post.map fun q => (q.1, encodeStore q.2)))) :
    ReadAll ((pre.map fun q => (q.1, encodeStore q.2)) ++
        (i, encodeStore es ++ (frameBytes (encodeEntry bad) ++ junk)) ::
        (post.map fun q => (q.1, encodeStore q.2))) =
      .ok ((pre.map (·.2)).flatten ++ (es ++ (post.map (·.2)).flatten)) := by
  rw [ReadAll, sortSegmentFiles_of_sorted _ hsorted]
  have hmid : readSegment (encodeStore es ++ (frameBytes (encodeEntry bad) ++ junk)) =
      SegRead.ok es :=
    readSegment_store_badcrc es bad junk hes hbadwf hbadlen hbadcrc
  have hf : List.Forall₂ (fun p es0 => readSegment p.2 = SegRead.ok es0)
      ((pre.map fun q => (q.1, encodeStore q.2)) ++
        (i, encodeStore es ++ (frameBytes (encodeEntry bad) ++ junk)) ::
        (post.map fun q => (q.1, encodeStore q.2)))
      (pre.map (·.2) ++ es :: post.map (·.2)) :=
    forall2_append_kv (forall2_encoded pre hpre)
      (List.Forall₂.cons hmid (forall2_encoded post hpost))
  rw [readAllLoop_forall2 _ _ [] hf]
  simp

/-- Witness for the amended claim C2: three segments where the middle one
ends in a CRC-mismatched record followed by junk; `ReadAll` yields the
good records of all three segments. -/
theorem claim_C2_amended_witness :
    ReadAll [(0, encodeStore [withCRC ⟨1, 1, [97], [1], 0, 0⟩]),
             (1, encodeStore [withCRC ⟨1, 2, [98], [2], 0, 0⟩] ++
                  (frameBytes (encodeEntry ⟨1, 3, [99], [3], 0, 7⟩) ++ [9, 9])),
             (2, encodeStore [withCRC ⟨2, 4, [100], [], 0, 0⟩])] =
      .ok [withCRC ⟨1, 1, [97], [1], 0, 0⟩, withCRC ⟨1, 2, [98], [2], 0, 0⟩,
           withCRC ⟨2, 4, [100], [], 0, 0⟩] := by
  have h := claim_C2_amended_crc_mismatch_ends_segment_only
    [(0, [withCRC ⟨1, 1, [97], [1], 0, 0⟩])]
    [(2, [withCRC ⟨2, 4, [100], [], 0, 0⟩])]
    1 [withCRC ⟨1, 2, [98], [2], 0, 0⟩] ⟨1, 3, [99], [3], 0, 7⟩ [9, 9]
    (by decide) (by decide) (by decide) (by decide) (by decide) (by decide)
    (by decide)
  simpa using h

/-! ## Association-list map lemmas -/

theorem mapLookup_nil (k : String) : mapLookup [] k = none := rfl

theorem mapLookup_cons (k' : String) (v' : CacheItem)
    (t : List (String × CacheItem)) (k : String) :
    mapLookup ((k', v') :: t) k = if k' = k then some v' else mapLookup t k := by
  by_cases h : k' = k <;> simp [mapLookup, List.find?_cons, h]

theorem mapLookup_mapInsert_self (m : List (String × CacheItem)) (k : String)
    (v : CacheItem) : mapLookup (mapInsert m k v) k = some v := by
  induction m with
  | nil => simp [mapInsert, mapLookup_cons]
  | cons p t ih =>
      obtain ⟨k', v'⟩ := p
      by_cases h : k' = k
      · simp [mapInsert, h, mapLookup_cons]
      · simp [mapInsert, h, mapLookup_cons, ih]

theorem mapLookup_mapInsert_ne (m : List (String × CacheItem)) (k j : String)
    (v : CacheItem) (hjk : j ≠ k) :
    mapLookup (mapInsert m k v) j = mapLookup m j := by
  induction m with
  | nil => simp [mapInsert, mapLookup_cons, mapLookup_nil, Ne.symm hjk]
  | cons p t ih =>
      obtain ⟨k', v'⟩ := p
      by_cases h : k' = k
      · subst h
        simp [mapInsert, mapLookup_cons, Ne.symm hjk]
      · simp [mapInsert, h, mapLookup_cons, ih]

theorem length_mapInsert_of_mem (m : List (String × CacheItem)) (k : String)
    (v it : CacheItem) (hk : mapLookup m k = some it) :
    (mapInsert m k v).length = m.length := by
  induction m with
  | nil => simp [mapLookup_nil] at hk
  | cons p t ih =>
      obtain ⟨k', v'⟩ := p
      by_cases h : k' = k
      · simp [mapInsert, h]
      · rw [mapLookup_cons] at hk
        simp [h] at hk
        simp [mapInsert, h, ih hk]

theorem mapLookup_eq_none_of_not_mem (m : List (String × CacheItem)) (k : String)
    (hk : k ∉ m.map Prod.fst) : mapLookup m k = none := by
  induction m with
  | nil => rfl
  | cons p t ih =>
      obtain ⟨k', v'⟩ := p
      rw [List.map_cons, List.mem_cons, not_or] at hk
      rw [mapLookup_cons, if_neg fun h => hk.1 h.symm]
      exact ih hk.2

theorem mapLookup_mapErase_self (m : List (String × CacheItem)) (k : String)
    (hnd : (m.map Prod.fst).Nodup) : mapLookup (mapErase m k) k = none := by
  induction m with
  | nil => rfl
  | cons p t ih =>
      obtain ⟨k', v'⟩ := p
      rw [List.map_cons, List.nodup_cons] at hnd
      by_cases h : k' = k
      · subst h
        simpa [mapErase] using mapLookup_eq_none_of_not_mem t k' hnd.1
      · simp [mapErase, h, mapLookup_cons, ih hnd.2]

theorem mapLookup_mapErase_ne (m : List (String × CacheItem)) (k j : String)
    (hjk : j ≠ k) : mapLookup (mapErase m k) j = mapLookup m j := by
  induction m with
  | nil => rfl
  | cons p t ih =>
      obtain ⟨k', v'⟩ := p
      by_cases h : k' = k
      · subst h
        simp [mapErase, mapLookup_cons, Ne.symm hjk]
      · simp [mapErase, h, mapLookup_cons, ih]

theorem filter_erase_ne (l : List String) (k : String) :
    (l.erase k).filter (fun x => x != k) = l.filter (fun x => x != k) := by
  induction l with
  | nil => simp
  | cons a t ih =>
      by_cases h : a = k
      · simp [List.erase_cons, h]
      · simp [List.erase_cons, h, List.filter_cons, ih]

/-! ## Claims C3 and C4: the recovery-replay duplicate-SET bug -/

/-- Claim C3 (code bug): the claim states that after every operation
sequence, including replay streams in which the same key appears in more
than one SET record, the entry map's key set equals the recency order's
key set with each resident key appearing exactly once in the recency
order.  The code violates this: `recoverFromWAL` inserts a SET record
without checking whether the key is already resident, so replaying two SET
records for key "a" into a capacity-2 cache leaves the recency order
holding "a" twice while the map holds it once. -/
theorem claim_C3_replay_duplicates_recency_order :
    (recoverFromWAL (newCache 2 true)
        [⟨EntryTypeSET, "a", serializeValue [7], 0⟩,
         ⟨EntryTypeSET, "a", serializeValue [7], 0⟩] 0).entries.map Prod.fst = ["a"] ∧
    (recoverFromWAL (newCache 2 true)
        [⟨EntryTypeSET, "a", serializeValue [7], 0⟩,
         ⟨EntryTypeSET, "a", serializeValue [7], 0⟩] 0).evictList = ["a", "a"] := by
  constructor <;> rfl

/-- Claim C4 (code bug): the claim states the entry count never exceeds
the configured capacity.  Replaying the stream SET a, SET a, DELETE a,
SET b, SET c, SET d into a capacity-2 cache leaves 3 entries: the second
SET a orphans a recency node for "a"; DELETE a removes the live node and
the map entry, leaving the orphan; when SET d later needs to evict, it
removes the orphan and the (absent) key "a" from the map, freeing no map
slot, and then inserts "d". -/
theorem claim_C4_replay_exceeds_capacity :
    (recoverFromWAL (newCache 2 true)
        [⟨EntryTypeSET, "a", serializeValue [7], 0⟩,
         ⟨EntryTypeSET, "a", serializeValue [7], 0⟩,
         ⟨EntryTypeDELETE, "a", [], 0⟩,
         ⟨EntryTypeSET, "b", serializeValue [7], 0⟩,
         ⟨EntryTypeSET, "c", serializeValue [7], 0⟩,
         ⟨EntryTypeSET, "d", serializeValue [7], 0⟩] 0).entries.length = 3 := by
  rfl

/-! ## Claim C7: WAL failure leaves the cache unchanged -/

/-- Claim C7 (confirmed): a `Set` or `Delete` call whose WAL `Append`
fails returns an error and leaves the cache state (entry map, recency
order, and everything else) exactly as it was: both operations append to
the WAL before any in-memory mutation and return on its failure.  For
`Delete` the claim applies to resident keys; on an absent key `Delete`
returns success without calling `Append` at all. -/
theorem claim_C7_wal_failure_leaves_cache_unchanged
    (c : LRUCache) (k : String) (v : Value) (ttl now : Int)
    (hw : c.walEnabled = true) :
    LRUCache.Set c k v ttl now false = (c, none) ∧
    (∀ it, mapLookup c.entries k = some it →
      LRUCache.Delete c k false = (c, none)) := by
  constructor
  · simp [LRUCache.Set, hw]
  · intro it hit
    simp [LRUCache.Delete, hit, hw]

/-- Witness for claim C7 at a concrete cache with a resident key. -/
theorem claim_C7_witness :
    LRUCache.Set ⟨[("k", ⟨[1], 0, 0⟩)], ["k"], 1, true, []⟩ "k" [2] 0 5 false =
      (⟨[("k", ⟨[1], 0, 0⟩)], ["k"], 1, true, []⟩, none) ∧
    LRUCache.Delete ⟨[("k", ⟨[1], 0, 0⟩)], ["k"], 1, true, []⟩ "k" false =
      (⟨[("k", ⟨[1], 0, 0⟩)], ["k"], 1, true, []⟩, none) := by
  have h := claim_C7_wal_failure_leaves_cache_unchanged
    ⟨[("k", ⟨[1], 0, 0⟩)], ["k"], 1, true, []⟩ "k" [2] 0 5 rfl
  exact ⟨h.1, h.2 ⟨[1], 0, 0⟩ rfl⟩

/-! ## Claim C9: TTL semantics of Get -/

/-- Claim C9 (counterexample): the claim says a resident entry with
NONZERO TTL and `now > created_at + ttl` is removed and reported not
present.  The code tests `TTL > 0`, so an entry with a negative TTL
(reachable: `Set` stores the caller's `ttl` verbatim and the HTTP layer
accepts negative durations) is past `created_at + ttl`, yet `Get` returns
its value and keeps it resident. -/
theorem claim_C9_counterexample :
    (LRUCache.Set (newCache 1 false) "k" [1] (-5) 0 true).1.entries =
      [("k", ⟨[1], -5, 0⟩)] ∧
    ((-5 : Int) ≠ 0 ∧ (0 : Int) > 0 + (-5)) ∧
    (LRUCache.Get (LRUCache.Set (newCache 1 false) "k" [1] (-5) 0 true).1 "k" 0).1 =
      some [1] ∧
    mapLookup
      (LRUCache.Get (LRUCache.Set (newCache 1 false) "k" [1] (-5) 0 true).1 "k" 0).2.entries
      "k" = some ⟨[1], -5, 0⟩ := by
  refine ⟨rfl, ⟨by decide, by decide⟩, rfl, rfl⟩

/-- Claim C9 (amended): for a resident key `k`, `Get` removes the entry
and returns not-present exactly when the TTL is POSITIVE (the claim said
nonzero) and `now > created_at + ttl`; otherwise it returns the stored
value and moves `k` to the MRU end; in neither case does it write to the
WAL. -/
theorem claim_C9_amended_get_ttl_semantics
    (c : LRUCache) (k : String) (now : Int) (it : CacheItem)
    (hk : mapLookup c.entries k = some it)
    (hnd : (c.entries.map Prod.fst).Nodup) :
    (it.TTL > 0 ∧ now > it.createdAt + it.TTL →
      (LRUCache.Get c k now).1 = none ∧
      mapLookup (LRUCache.Get c k now).2.entries k = none ∧
      (LRUCache.Get c k now).2.evictList = c.evictList.erase k) ∧
    (¬(it.TTL > 0 ∧ now > it.createdAt + it.TTL) →
      (LRUCache.Get c k now).1 = some it.value ∧
      (LRUCache.Get c k now).2.entries = c.entries ∧
      (LRUCache.Get c k now).2.evictList = k :: c.evictList.erase k) ∧
    (LRUCache.Get c k now).2.walLog = c.walLog := by
  by_cases hexp : it.TTL > 0 ∧ now > it.createdAt + it.TTL
  · have hred : LRUCache.Get c k now =
        (none, { c with evictList := c.evictList.erase k,
                        entries := mapErase c.entries k }) := by
      simp [LRUCache.Get, hk, if_pos hexp]
    rw [hred]
    exact ⟨fun _ => ⟨rfl, mapLookup_mapErase_self c.entries k hnd, rfl⟩,
           fun h => absurd hexp h, rfl⟩
  · have hred : LRUCache.Get c k now =
        (some it.value, { c with evictList := moveToFront c.evictList k }) := by
      simp [LRUCache.Get, hk, if_neg hexp]
    rw [hred]
    exact ⟨fun h => absurd h hexp, fun _ => ⟨rfl, rfl, rfl⟩, rfl⟩

/-- Witness for the amended claim C9 at a concrete cache, exercising both
the expired-removal side and the live-hit side. -/
theorem claim_C9_amended_witness :
    ((LRUCache.Get ⟨[("k", ⟨[9], 10, 0⟩)], ["k"], 1, false, []⟩ "k" 11).1 = none ∧
      mapLookup (LRUCache.Get ⟨[("k", ⟨[9], 10, 0⟩)], ["k"], 1, false, []⟩ "k" 11).2.entries
        "k" = none) ∧
    (LRUCache.Get ⟨[("k", ⟨[9], 10, 0⟩)], ["k"], 1, false, []⟩ "k" 5).1 = some [9] := by
  have h1 := claim_C9_amended_get_ttl_semantics
    ⟨[("k", ⟨[9], 10, 0⟩)], ["k"], 1, false, []⟩ "k" 11 ⟨[9], 10, 0⟩ rfl (by decide)
  have h2 := claim_C9_amended_get_ttl_semantics
    ⟨[("k", ⟨[9], 10, 0⟩)], ["k"], 1, false, []⟩ "k" 5 ⟨[9], 10, 0⟩ rfl (by decide)
  have e1 := h1.1 (by constructor <;> decide)
  have e2 := h2.2.1 (by decide)
  exact ⟨⟨e1.1, e1.2.1⟩, e2.1⟩

/-! ## Claim C10: Set on a resident key is a pure overwrite -/

/-- Claim C10 (confirmed): a successful `Set` on an already-resident key
evicts nothing and affects no other key: the entry count is unchanged,
every other key's entry is unchanged, the relative recency order of the
other keys is unchanged, and `k` gets the new value, TTL, and created-at
and moves to the MRU end — even at full capacity (the resident-key branch
runs before the capacity check). -/
theorem claim_C10_set_existing_key_frame
    (c : LRUCache) (k : String) (v : Value) (ttl now : Int) (ap : Bool)
    (it : CacheItem)
    (hk : mapLookup c.entries k = some it)
    (hok : c.walEnabled = false ∨ ap = true) :
    (LRUCache.Set c k v ttl now ap).2 = some () ∧
    (LRUCache.Set c k v ttl now ap).1.entries.length = c.entries.length ∧
    mapLookup (LRUCache.Set c k v ttl now ap).1.entries k = some ⟨v, ttl, now⟩ ∧
    (∀ j, j ≠ k →
      mapLookup (LRUCache.Set c k v ttl now ap).1.entries j = mapLookup c.entries j) ∧
    (LRUCache.Set c k v ttl now ap).1.evictList = k :: c.evictList.erase k ∧
    (LRUCache.Set c k v ttl now ap).1.evictList.filter (fun x => x != k) =
      c.evictList.filter (fun x => x != k) := by
  have hred : LRUCache.Set c k v ttl now ap =
      ({ c with
          walLog := if c.walEnabled then
              c.walLog ++ [⟨EntryTypeSET, k, serializeValue v,
                if ttl > 0 then now + ttl else 0⟩]
            else c.walLog,
          entries := mapInsert c.entries k ⟨v, ttl, now⟩,
          evictList := moveToFront c.evictList k }, some ()) := by
    rcases hok with hw | ha
    · simp [LRUCache.Set, hw, hk]
    · subst ha
      cases hwe : c.walEnabled
      · simp [LRUCache.Set, hwe, hk]
      · simp [LRUCache.Set, hwe, hk]
  rw [hred]
  refine ⟨rfl, length_mapInsert_of_mem c.entries k _ it hk,
    mapLookup_mapInsert_self c.entries k _,
    fun j hj => mapLookup_mapInsert_ne c.entries k j _ hj, rfl, ?_⟩
  show (k :: c.evictList.erase k).filter (fun x => x != k) =
    c.evictList.filter (fun x => x != k)
  rw [List.filter_cons]
  simp only [bne_self_eq_false, if_neg]
  exact filter_erase_ne c.evictList k

/-- Witness for claim C10 at a concrete full-capacity cache with the key
resident. -/
theorem claim_C10_witness :
    (LRUCache.Set ⟨[("a", ⟨[1], 0, 0⟩), ("b", ⟨[2], 0, 0⟩)], ["b", "a"], 2, false, []⟩
        "a" [9] 7 3 true).1.entries.length = 2 ∧
    mapLookup (LRUCache.Set
        ⟨[("a", ⟨[1], 0, 0⟩), ("b", ⟨[2], 0, 0⟩)], ["b", "a"], 2, false, []⟩
        "a" [9] 7 3 true).1.entries "a" = some ⟨[9], 7, 3⟩ ∧
    (LRUCache.Set ⟨[("a", ⟨[1], 0, 0⟩), ("b", ⟨[2], 0, 0⟩)], ["b", "a"], 2, false, []⟩
        "a" [9] 7 3 true).1.evictList = ["a", "b"] := by
  have h := claim_C10_set_existing_key_frame
    ⟨[("a", ⟨[1], 0, 0⟩), ("b", ⟨[2], 0, 0⟩)], ["b", "a"], 2, false, []⟩
    "a" [9] 7 3 true ⟨[1], 0, 0⟩ rfl (Or.inl rfl)
  refine ⟨h.2.1, h.2.2.1, ?_⟩
  rw [h.2.2.2.2.1]
  rfl

/-! ## Claim C5: sequence numbers on Append failure -/

/-- Claim C5 (counterexample): the claim says a failing `Append` leaves
`last_seq` unchanged.  With a WAL at `last_seq = 7` and a flush failure,
`Append` returns an error yet `last_seq` is 8: the source increments the
counter before any fallible step and never rolls it back. -/
theorem claim_C5_counterexample :
    (Append ⟨[(0, [])], 0, 7, false, 1000, 10⟩ EntryTypeSET [107] [1] 0
      ⟨true, true, true, false, true⟩).2 = some .ioErr ∧
    (Append ⟨[(0, [])], 0, 7, false, 1000, 10⟩ EntryTypeSET [107] [1] 0
      ⟨true, true, true, false, true⟩).1.lastSequenceNumber = 8 := by
  constructor <;> rfl

/-- Claim C5 (amended): every `Append` call — succeeding or failing at any
step (encode, rotation, write, flush, fsync) — advances `last_seq` by one
(modulo 2^64); a failed call burns the assigned sequence number rather
than rolling it back. -/
theorem claim_C5_amended_last_seq_always_advances
    (w : WALState) (entryType : Nat) (key value : Bytes)
    (expiresAtUnixNano : Int) (oracle : IOOracle) :
    (Append w entryType key value expiresAtUnixNano oracle).1.lastSequenceNumber =
      (w.lastSequenceNumber + 1) % 2 ^ 64 := by
  simp only [Append]
  split
  · rfl
  · split
    · rfl
    · split
      · rfl
      · split
        · rfl
        · split <;> rfl

/-! ## Claim C8: rotation retention -/

/-- Claim C8 (counterexample): the claim quantifies over every bound
`max_segments = M`, including M = 0.  Rotating a one-segment directory
with M = 0 deletes 1 segment, not the claimed L − M + 1 = 2, and leaves
one segment file, violating the claimed post-rotation bound of at most
M = 0 files. -/
theorem claim_C8_counterexample :
    (checkAndRotateSegment [(0, [1, 2, 3])] 0 3 3 0).removed = [0] ∧
    ([0].length ≠ 1 - 0 + 1) ∧
    (checkAndRotateSegment [(0, [1, 2, 3])] 0 3 3 0).dir.length = 1 ∧
    ¬((1 : Int) ≤ 0) := by
  refine ⟨rfl, by decide, rfl, by decide⟩

/-- Claim C8 (amended): for every rotation with `max_segments = M ≥ 1`,
pre-rotation segment list length L (ascending ids, at least one segment):
if L < M nothing is removed; otherwise exactly the L − M + 1 lowest-id
segments are deleted, in ascending id order; afterwards at most M segment
files exist and the new active segment has id `max_id + 1`. -/
theorem claim_C8_amended_retention
    (d : Dir) (activeId activeSize : Nat) (maxFileSize maxSegments : Int)
    (hM : 1 ≤ maxSegments)
    (hdne : d ≠ [])
    (hsorted : List.Pairwise (fun a b => a.1 ≤ b.1) d)
    (hfire : maxFileSize ≤ (activeSize : Int)) :
    ((d.length : Int) < maxSegments →
      (checkAndRotateSegment d activeId activeSize maxFileSize maxSegments).removed
        = []) ∧
    (maxSegments ≤ (d.length : Int) →
      (checkAndRotateSegment d activeId activeSize maxFileSize maxSegments).removed
        = (d.take ((d.length : Int) - maxSegments + 1).toNat).map (·.1)) ∧
    (((checkAndRotateSegment d activeId activeSize maxFileSize
        maxSegments).dir.length : Int) ≤ maxSegments) ∧
    (checkAndRotateSegment d activeId activeSize maxFileSize
        maxSegments).newActiveId = GetLastSegmentID (d.map (·.1)) + 1 := by
  have hlen : 0 < d.length := List.length_pos.mpr hdne
  simp only [checkAndRotateSegment, cleanupOldSegments,
    sortSegmentFiles_of_sorted d hsorted]
  rw [if_neg (show ¬((activeSize : Int) < maxFileSize) by omega)]
  by_cases hLM : (d.length : Int) < maxSegments
  · rw [if_pos hLM]
    refine ⟨fun _ => rfl, fun h => absurd hLM (by omega), ?_, by simp [hlen]⟩
    simp only [List.length_append, List.length_cons, List.length_nil]
    omega
  · rw [if_neg hLM]
    have hk : min ((d.length : Int) - maxSegments + 1).toNat d.length =
        ((d.length : Int) - maxSegments + 1).toNat := by omega
    refine ⟨fun h => absurd h (by omega), fun _ => ?_, ?_, by simp [hlen]⟩
    · simp only [hk]
    · simp only [List.length_append, List.length_drop, List.length_cons,
        List.length_nil, hk]
      omega

/-- Witness for the amended claim C8: three segments, bound 2; the two
lowest ids are removed in order and the new active segment is id 3. -/
theorem claim_C8_amended_witness :
    (checkAndRotateSegment [(0, [7]), (1, [8]), (2, [9])] 2 1 1 2).removed = [0, 1] ∧
    (checkAndRotateSegment [(0, [7]), (1, [8]), (2, [9])] 2 1 1 2).dir =
      [(2, [9]), (3, [])] ∧
    (checkAndRotateSegment [(0, [7]), (1, [8]), (2, [9])] 2 1 1 2).newActiveId = 3 := by
  have h := claim_C8_amended_retention [(0, [7]), (1, [8]), (2, [9])] 2 1 1 2
    (by decide) (by decide) (by decide) (by decide)
  refine ⟨?_, by rfl, ?_⟩
  · have h2 := h.2.1 (by decide)
    simpa using h2
  · simpa using h.2.2.2

/-! ## Trace-model helper lemmas (claim C6) -/

theorem foldl_max_le (l : List Nat) (a x : Nat) (ha : a ≤ x)
    (h : ∀ i ∈ l, i ≤ x) : l.foldl max a ≤ x := by
  induction l generalizing a with
  | nil => exact ha
  | cons b t ih =>
      exact ih (max a b) (max_le ha (h b (by simp))) fun i hi => h i (by simp [hi])

theorem le_foldl_max_init (l : List Nat) (a : Nat) : a ≤ l.foldl max a := by
  induction l generalizing a with
  | nil => exact le_refl a
  | cons b t ih => exact le_trans (le_max_left a b) (ih (max a b))

theorem le_foldl_max (l : List Nat) (a x : Nat) (hx : x ∈ l) :
    x ≤ l.foldl max a := by
  induction l generalizing a with
  | nil => simp at hx
  | cons b t ih =>
      rcases List.mem_cons.mp hx with rfl | hx2
      · exact le_trans (le_max_right a x) (le_foldl_max_init t (max a x))
      · exact ih (max a b) hx2

theorem seg_decomp (segs : FDir) (p : Nat × List WAL_Entry)
    (hlast : segs.getLast? = some p) : segs = segs.dropLast ++ [p] :=
  (List.dropLast_append_getLast? p hlast).symm

theorem ids_le_getLast (segs : FDir) (p : Nat × List WAL_Entry)
    (h : List.Chain' (fun a b => a.1 < b.1) segs)
    (hlast : segs.getLast? = some p) :
    ∀ q ∈ segs, q.1 ≤ p.1 := by
  induction segs with
  | nil => simp at hlast
  | cons x t ih =>
      cases t with
      | nil =>
          simp at hlast
          subst hlast
          intro q hq
          simp at hq
          subst hq
          exact le_refl _
      | cons y t2 =>
          rw [List.getLast?_cons_cons] at hlast
          rw [List.chain'_cons] at h
          have hy : y.1 ≤ p.1 := ih h.2 hlast y (by simp)
          intro q hq
          rcases List.mem_cons.mp hq with rfl | hq2
          · exact le_of_lt (lt_of_lt_of_le h.1 hy)
          · exact ih h.2 hlast q hq2

theorem getLastSegmentID_ascending (segs : FDir) (p : Nat × List WAL_Entry)
    (h : List.Chain' (fun a b => a.1 < b.1) segs)
    (hlast : segs.getLast? = some p) :
    GetLastSegmentID (segs.map (·.1)) = p.1 := by
  have hmem : p ∈ segs := List.mem_of_mem_getLast? (by rw [hlast]; rfl)
  apply le_antisymm
  · exact foldl_max_le _ 0 p.1 (Nat.zero_le _)
      fun i hi => by
        obtain ⟨q, hq, rfl⟩ := List.mem_map.mp hi
        exact ids_le_getLast segs p h hlast q hq
  · exact le_foldl_max _ 0 p.1 (List.mem_map.mpr ⟨p, hmem, rfl⟩)

theorem fdirLookup_getLast (segs : FDir) (p : Nat × List WAL_Entry)
    (h : List.Chain' (fun a b => a.1 < b.1) segs)
    (hlast : segs.getLast? = some p) :
    fdirLookup segs p.1 = some p.2 := by
  induction segs with
  | nil => simp at hlast
  | cons x t ih =>
      cases t with
      | nil =>
          simp at hlast
          subst hlast
          simp [fdirLookup, List.find?_cons]
      | cons y t2 =>
          rw [List.getLast?_cons_cons] at hlast
          rw [List.chain'_cons] at h
          have hy : y.1 ≤ p.1 := ids_le_getLast _ p h.2 hlast y (by simp)
          have hx : x.1 ≠ p.1 := Nat.ne_of_lt (lt_of_lt_of_le h.1 hy)
          have := ih h.2 hlast
          rw [fdirLookup, List.find?_cons] at this ⊢
          simp only [show (x.1 == p.1) = false from by simp [hx]]
          exact this

theorem seqs_le_getLast (l : List Nat) (x : Nat)
    (h : List.Chain' (· < ·) l) (hlast : l.getLast? = some x) :
    ∀ y ∈ l, y ≤ x := by
  induction l with
  | nil => simp at hlast
  | cons a t ih =>
      cases t with
      | nil =>
          simp at hlast
          subst hlast
          intro y hy
          simp at hy
          subst hy
          exact le_refl _
      | cons b t2 =>
          rw [List.getLast?_cons_cons] at hlast
          rw [List.chain'_cons] at h
          have hb : b ≤ x := ih h.2 hlast b (by simp)
          intro y hy
          rcases List.mem_cons.mp hy with rfl | hy2
          · exact le_of_lt (lt_of_lt_of_le h.1 hb)
          · exact ih h.2 hlast y hy2

theorem stream_append_single (l : FDir) (i : Nat) (es : List WAL_Entry) :
    stream (l ++ [(i, es)]) = stream l ++ es := by
  simp [stream]

theorem stream_take_drop (segs : FDir) (k : Nat) :
    stream segs = stream (segs.take k) ++ stream (segs.drop k) := by
  simp only [stream, List.map_take, List.map_drop]
  rw [← List.flatten_append, List.take_append_drop]

theorem mem_stream_of_mem (segs : FDir) (p : Nat × List WAL_Entry)
    (e : WAL_Entry) (hp : p ∈ segs) (he : e ∈ p.2) : e ∈ stream segs := by
  simp only [stream, List.mem_flatten, List.mem_map]
  exact ⟨p.2, ⟨p, hp, rfl⟩, he⟩

theorem fdirAppend_fresh (l : FDir) (i : Nat) (es : List WAL_Entry)
    (e : WAL_Entry) (h : ∀ p ∈ l, p.1 ≠ i) :
    fdirAppend (l ++ [(i, es)]) i e = l ++ [(i, es ++ [e])] := by
  rw [fdirAppend, List.map_append]
  have h1 : l.map (fun p => if p.1 = i then (p.1, p.2 ++ [e]) else p) = l := by
    induction l with
    | nil => rfl
    | cons p t ih =>
        simp only [List.map_cons, if_neg (h p (by simp)), List.cons.injEq, true_and]
        exact ih fun q hq => h q (by simp [hq])
  rw [h1]
  simp

theorem dropLast_ids_lt (segs : FDir) (p : Nat × List WAL_Entry)
    (h : List.Chain' (fun a b => a.1 < b.1) segs)
    (hlast : segs.getLast? = some p) :
    ∀ q ∈ segs.dropLast, q.1 < p.1 := by
  induction segs with
  | nil => simp at hlast
  | cons x t ih =>
      cases t with
      | nil => simp
      | cons y t2 =>
          rw [List.getLast?_cons_cons] at hlast
          rw [List.chain'_cons] at h
          intro q hq
          rw [List.dropLast_cons₂, List.mem_cons] at hq
          rcases hq with rfl | hq2
          · exact lt_of_lt_of_le h.1 (ids_le_getLast _ p h.2 hlast y (by simp))
          · exact ih h.2 hlast q hq2

theorem cleanupOldSegmentsF_eq_drop (segs : FDir) (maxSegments : Int) :
    ∃ k, cleanupOldSegmentsF segs maxSegments = segs.drop k := by
  rw [cleanupOldSegmentsF]
  split
  · exact ⟨0, rfl⟩
  · exact ⟨_, rfl⟩

/-- Shape of the directory after the rotation check: the active segment is
the last one, ids below it are strictly smaller, ids ascend, and the
stream is a suffix of the pre-rotation stream. -/
theorem checkAndRotateSegmentF_shape (segs : FDir) (aId : Nat)
    (maxFS maxSegs : Int) (p : Nat × List WAL_Entry)
    (hchain : List.Chain' (fun a b => a.1 < b.1) segs)
    (hlast : segs.getLast? = some p) (haId : aId = p.1) :
    ∃ l' es',
      (checkAndRotateSegmentF segs aId maxFS maxSegs).1 =
        l' ++ [((checkAndRotateSegmentF segs aId maxFS maxSegs).2, es')] ∧
      (∀ q ∈ l', q.1 < (checkAndRotateSegmentF segs aId maxFS maxSegs).2) ∧
      List.Chain' (fun a b => a.1 < b.1)
        (checkAndRotateSegmentF segs aId maxFS maxSegs).1 ∧
      stream (checkAndRotateSegmentF segs aId maxFS maxSegs).1 <:+ stream segs := by
  have hne : segs ≠ [] := by
    intro h
    subst h
    simp at hlast
  rw [checkAndRotateSegmentF]
  split
  · refine ⟨segs.dropLast, p.2, ?_, ?_, hchain, List.suffix_refl _⟩
    · conv_lhs => rw [seg_decomp segs p hlast]
      rw [haId]
    · rw [haId]
      exact dropLast_ids_lt segs p hchain hlast
  · obtain ⟨k, hk⟩ := cleanupOldSegmentsF_eq_drop segs maxSegs
    have hlen : segs.length > 0 := List.length_pos.mpr hne
    have hnext : (if segs.length > 0 then
        GetLastSegmentID (segs.map (·.1)) + 1 else 0) = p.1 + 1 := by
      rw [if_pos hlen, getLastSegmentID_ascending segs p hchain hlast]
    simp only [hk, hnext]
    refine ⟨segs.drop k, [], rfl, ?_, ?_, ?_⟩
    · intro q hq
      have hq2 : q ∈ segs := List.mem_of_mem_drop hq
      exact lt_of_le_of_lt (ids_le_getLast segs p hchain hlast q hq2) (by omega)
    · rw [List.chain'_append]
      refine ⟨hchain.drop k, List.chain'_singleton _, ?_⟩
      intro x hx y hy
      simp at hy
      subst hy
      have hx2 : x ∈ segs.drop k := List.mem_of_mem_getLast? hx
      exact lt_of_le_of_lt
        (ids_le_getLast segs p hchain hlast x (List.mem_of_mem_drop hx2)) (by omega)
    · rw [stream_append_single, List.append_nil]
      exact ⟨stream (segs.take k), (stream_take_drop segs k).symm⟩
theorem chain_ids_replace_last (l : FDir) (i : Nat) (es es2 : List WAL_Entry)
    (h : List.Chain' (fun a b => a.1 < b.1) (l ++ [(i, es)])) :
    List.Chain' (fun a b => a.1 < b.1) (l ++ [(i, es2)]) := by
  rw [List.chain'_append] at h ⊢
  refine ⟨h.1, List.chain'_singleton _, ?_⟩
  intro x hx y hy
  simp only [List.head?_cons, Option.mem_def, Option.some.injEq] at hy
  subst hy
  exact h.2.2 x hx (i, es) (by simp)

/-- One successful `Append` preserves the in-session invariant, with the
appends-so-far bound advancing by one. -/
theorem appendSys_preserves (A : Nat) (maxFS maxSegs : Int) (sys : WalSys)
    (r : Req) (hinv : SysInv A sys) (hwf : WfReq r) (hA : A + 1 < 2 ^ 64) :
    SysInv (A + 1) (appendSys maxFS maxSegs sys r) := by
  obtain ⟨⟨hchain, hseqs, hgood, hbound, hlastne⟩, hne, hactive, hle, hlA⟩ := hinv
  obtain ⟨hwt, hwe1, hwe2, hwk, hwv⟩ := hwf
  have hlastp : sys.segs.getLast? = some (sys.segs.getLast hne) :=
    List.getLast?_eq_getLast sys.segs hne
  have haId : sys.activeId = (sys.segs.getLast hne).1 :=
    hactive (sys.segs.getLast hne) hlastp
  have hseqeq : (sys.lastSeq + 1) % 2 ^ 64 = sys.lastSeq + 1 :=
    Nat.mod_eq_of_lt (by omega)
  have hbasewf : WfEntry ⟨r.typ, (sys.lastSeq + 1) % 2 ^ 64, r.key, r.value,
      r.expiresAtUnixNano, 0⟩ := by
    refine ⟨hwt, by dsimp only; omega, by norm_num, hwe1, hwe2, by
      have := hwk; norm_num at this ⊢; omega, by
      have := hwv; norm_num at this ⊢; omega⟩
  have hentrygood : GoodEntry (withCRC ⟨r.typ, (sys.lastSeq + 1) % 2 ^ 64, r.key,
      r.value, r.expiresAtUnixNano, 0⟩) := by
    refine ⟨wfEntry_withCRC _ hbasewf, verifyCRC_withCRC _, ?_⟩
    rw [length_encodeEntry]
    show 37 + r.key.length + r.value.length < 2 ^ 31
    have h1 := hwk
    have h2 := hwv
    norm_num at h1 h2 ⊢
    omega
  obtain ⟨l', es', heq, hlt, hchain', hsuffix⟩ :=
    checkAndRotateSegmentF_shape sys.segs sys.activeId maxFS maxSegs
      (sys.segs.getLast hne) hchain hlastp haId
  have happend : fdirAppend
      (checkAndRotateSegmentF sys.segs sys.activeId maxFS maxSegs).1
      (checkAndRotateSegmentF sys.segs sys.activeId maxFS maxSegs).2
      (withCRC ⟨r.typ, (sys.lastSeq + 1) % 2 ^ 64, r.key, r.value,
        r.expiresAtUnixNano, 0⟩) =
      l' ++ [((checkAndRotateSegmentF sys.segs sys.activeId maxFS maxSegs).2,
        es' ++ [withCRC ⟨r.typ, (sys.lastSeq + 1) % 2 ^ 64, r.key, r.value,
          r.expiresAtUnixNano, 0⟩])] := by
    rw [heq]
    exact fdirAppend_fresh l' _ es' _ fun q hq => Nat.ne_of_lt (hlt q hq)
  have hstream : stream (fdirAppend
      (checkAndRotateSegmentF sys.segs sys.activeId maxFS maxSegs).1
      (checkAndRotateSegmentF sys.segs sys.activeId maxFS maxSegs).2
      (withCRC ⟨r.typ, (sys.lastSeq + 1) % 2 ^ 64, r.key, r.value,
        r.expiresAtUnixNano, 0⟩)) =
      stream (checkAndRotateSegmentF sys.segs sys.activeId maxFS maxSegs).1 ++
      [withCRC ⟨r.typ, (sys.lastSeq + 1) % 2 ^ 64, r.key, r.value,
        r.expiresAtUnixNano, 0⟩] := by
    rw [happend, stream_append_single, heq, stream_append_single,
      List.append_assoc]
  have hsub : ∀ e ∈ stream
      (checkAndRotateSegmentF sys.segs sys.activeId maxFS maxSegs).1,
      e ∈ stream sys.segs := fun e he => hsuffix.subset he
  have hseqb : ∀ e ∈ stream
      (checkAndRotateSegmentF sys.segs sys.activeId maxFS maxSegs).1,
      e.SequenceNumber ≤ sys.lastSeq := fun e he => hle e (hsub e he)
  show SysInv (A + 1)
    ⟨fdirAppend (checkAndRotateSegmentF sys.segs sys.activeId maxFS maxSegs).1
      (checkAndRotateSegmentF sys.segs sys.activeId maxFS maxSegs).2
      (withCRC ⟨r.typ, (sys.lastSeq + 1) % 2 ^ 64, r.key, r.value,
        r.expiresAtUnixNano, 0⟩),
     (checkAndRotateSegmentF sys.segs sys.activeId maxFS maxSegs).2,
     (sys.lastSeq + 1) % 2 ^ 64⟩
  dsimp only
  refine ⟨⟨?_, ?_, ?_, ?_, ?_⟩, ?_, ?_, ?_, ?_⟩
  · rw [happend]
    exact chain_ids_replace_last l' _ es' _ (heq ▸ hchain')
  · show List.Chain' (· < ·) (streamSeqs _)
    rw [streamSeqs, hstream, List.map_append, List.chain'_append]
    refine ⟨List.Chain'.suffix hseqs (hsuffix.map _), List.chain'_singleton _, ?_⟩
    intro x hx y hy
    simp only [List.map_cons, List.map_nil, List.head?_cons, Option.mem_def,
      Option.some.injEq] at hy
    subst hy
    have hx2 := List.mem_of_mem_getLast? hx
    obtain ⟨e, he, rfl⟩ := List.mem_map.mp hx2
    show e.SequenceNumber <
      (withCRC ⟨r.typ, (sys.lastSeq + 1) % 2 ^ 64, r.key, r.value,
        r.expiresAtUnixNano, 0⟩).SequenceNumber
    have : e.SequenceNumber ≤ sys.lastSeq := hseqb e he
    show e.SequenceNumber < (sys.lastSeq + 1) % 2 ^ 64
    omega
  · intro e he
    rw [hstream] at he
    rcases List.mem_append.mp he with h1 | h2
    · exact hgood e (hsub e h1)
    · simp at h2
      subst h2
      exact hentrygood
  · intro e he
    rw [hstream] at he
    rcases List.mem_append.mp he with h1 | h2
    · have := hbound e (hsub e h1)
      omega
    · simp at h2
      subst h2
      show 1 ≤ (sys.lastSeq + 1) % 2 ^ 64 ∧ (sys.lastSeq + 1) % 2 ^ 64 ≤ A + 1
      omega
  · intro q hq hstr
    rw [happend, List.getLast?_concat, Option.some.injEq] at hq
    subst hq
    simp
  · rw [happend]
    simp
  · intro q hq
    rw [happend, List.getLast?_concat, Option.some.injEq] at hq
    subst hq
    rfl
  · intro e he
    rw [hstream] at he
    rcases List.mem_append.mp he with h1 | h2
    · have := hseqb e h1
      dsimp only
      omega
    · simp at h2
      subst h2
      show (sys.lastSeq + 1) % 2 ^ 64 ≤ (sys.lastSeq + 1) % 2 ^ 64
      exact le_refl _
  · show (sys.lastSeq + 1) % 2 ^ 64 ≤ A + 1
    omega
/-- Folding a session's appends preserves the invariant, advancing the
append bound by the number of requests. -/
theorem foldl_appendSys_preserves (maxFS maxSegs : Int) (reqs : List Req)
    (A : Nat) (sys : WalSys) (hinv : SysInv A sys)
    (hwf : ∀ r ∈ reqs, WfReq r) (hA : A + reqs.length < 2 ^ 64) :
    SysInv (A + reqs.length) (reqs.foldl (appendSys maxFS maxSegs) sys) := by
  induction reqs generalizing A sys with
  | nil => simpa using hinv
  | cons r t ih =>
      simp only [List.foldl_cons, List.length_cons]
      have h1 : SysInv (A + 1) (appendSys maxFS maxSegs sys r) :=
        appendSys_preserves A maxFS maxSegs sys r hinv (hwf r (by simp))
          (by simp only [List.length_cons] at hA; omega)
      have h2 := ih (A + 1) _ h1 (fun q hq => hwf q (by simp [hq]))
        (by simp only [List.length_cons] at hA; omega)
      rw [show A + (t.length + 1) = A + 1 + t.length from by omega]
      exact h2

/-- The last sequence number of the stream sits in the last segment. -/
theorem streamSeqs_getLast (segs : FDir) (p : Nat × List WAL_Entry)
    (hlast : segs.getLast? = some p) (hp2 : p.2 ≠ []) :
    (streamSeqs segs).getLast? = some ((p.2.getLast hp2).SequenceNumber) := by
  rw [streamSeqs]
  conv_lhs => rw [seg_decomp segs p hlast]
  rw [stream_append_single, List.map_append,
    List.getLast?_append_of_ne_nil _
      (show List.map (fun x => x.SequenceNumber) p.2 ≠ [] by simp [hp2]),
    List.getLast?_map, List.getLast?_eq_getLast p.2 hp2, Option.map_some']

/-- Opening a directory that satisfies the invariant yields a state
satisfying the in-session invariant: the active segment is the highest-id
one and `lastSeq` (read back by the last-sequence scan) bounds every stored
sequence number. -/
theorem openSys_preserves (A : Nat) (segs : FDir) (hinv : DirInv A segs) :
    SysInv A (openSys segs) := by
  obtain ⟨hchain, hseqs, hgood, hbound, hlastne⟩ := hinv
  cases segs with
  | nil =>
      show SysInv A ⟨[(0, [])], 0, 0⟩
      refine ⟨⟨List.chain'_singleton _, ?_, ?_, ?_, ?_⟩, by simp, ?_, ?_,
        Nat.zero_le A⟩
      · exact List.chain'_nil
      · intro e he
        simp [stream] at he
      · intro e he
        simp [stream] at he
      · intro p hp hne
        exact absurd rfl hne
      · intro p hp
        simp only [List.getLast?_singleton, Option.some.injEq] at hp
        subst hp
        rfl
      · intro e he
        simp [stream] at he
  | cons x t =>
      have hne : x :: t ≠ [] := by simp
      have hlast : (x :: t).getLast? = some ((x :: t).getLast hne) :=
        List.getLast?_eq_getLast _ hne
      have hid : GetLastSegmentID ((x :: t).map (·.1)) = ((x :: t).getLast hne).1 :=
        getLastSegmentID_ascending _ _ hchain hlast
      have hlook : fdirLookup (x :: t) ((x :: t).getLast hne).1 =
          some ((x :: t).getLast hne).2 :=
        fdirLookup_getLast _ _ hchain hlast
      have hopen : openSys (x :: t) =
          ⟨x :: t, ((x :: t).getLast hne).1,
            lastSeqOfSeg ((x :: t).getLast hne).2⟩ := by
        simp only [openSys, if_pos (show (x :: t).length > 0 by simp), hid, hlook,
          Option.getD_some]
      rw [hopen]
      refine ⟨⟨hchain, hseqs, hgood, hbound, hlastne⟩, by simp, ?_, ?_, ?_⟩
      · intro q hq
        rw [hlast, Option.some.injEq] at hq
        exact congrArg Prod.fst hq
      · intro e he
        have hp2 : ((x :: t).getLast hne).2 ≠ [] :=
          hlastne _ hlast (List.ne_nil_of_mem he)
        have hle := seqs_le_getLast _ _ hseqs (streamSeqs_getLast _ _ hlast hp2)
          e.SequenceNumber (List.mem_map.mpr ⟨e, he, rfl⟩)
        show e.SequenceNumber ≤ lastSeqOfSeg ((x :: t).getLast hne).2
        rw [show lastSeqOfSeg ((x :: t).getLast hne).2 =
            (((x :: t).getLast hne).2.getLast hp2).SequenceNumber from by
          simp only [lastSeqOfSeg, List.getLast?_eq_getLast _ hp2]]
        exact hle
      · show lastSeqOfSeg ((x :: t).getLast hne).2 ≤ A
        by_cases hp2 : ((x :: t).getLast hne).2 = []
        · rw [show lastSeqOfSeg ((x :: t).getLast hne).2 = 0 from by
            rw [hp2]; rfl]
          exact Nat.zero_le A
        · have hmem : (((x :: t).getLast hne).2.getLast hp2) ∈ stream (x :: t) :=
            mem_stream_of_mem _ _ _ (List.getLast_mem hne) (List.getLast_mem hp2)
          have hb := (hbound _ hmem).2
          rw [show lastSeqOfSeg ((x :: t).getLast hne).2 =
              (((x :: t).getLast hne).2.getLast hp2).SequenceNumber from by
            simp only [lastSeqOfSeg, List.getLast?_eq_getLast _ hp2]]
          exact hb

/-- One whole session preserves the cross-session directory invariant. -/
theorem runSession_preserves (maxFS maxSegs : Int) (segs : FDir)
    (reqs : List Req) (A : Nat) (hinv : DirInv A segs)
    (hwf : ∀ r ∈ reqs, WfReq r) (hA : A + reqs.length < 2 ^ 64) :
    DirInv (A + reqs.length) (runSession maxFS maxSegs segs reqs) :=
  (foldl_appendSys_preserves maxFS maxSegs reqs A _
    (openSys_preserves A segs hinv) hwf hA).1

theorem foldl_runSession_preserves (maxFS maxSegs : Int)
    (sessions : List (List Req)) (A : Nat) (segs : FDir) (hinv : DirInv A segs)
    (hwf : ∀ s ∈ sessions, ∀ r ∈ s, WfReq r)
    (hA : A + (sessions.map List.length).sum < 2 ^ 64) :
    DirInv (A + (sessions.map List.length).sum)
      (sessions.foldl (runSession maxFS maxSegs) segs) := by
  induction sessions generalizing A segs with
  | nil => simpa using hinv
  | cons s t ih =>
      simp only [List.foldl_cons, List.map_cons, List.sum_cons]
      have h1 := runSession_preserves maxFS maxSegs segs s A hinv
        (hwf s (by simp))
        (by simp only [List.map_cons, List.sum_cons] at hA; omega)
      have h2 := ih (A + s.length) _ h1 (fun q hq r hr => hwf q (by simp [hq]) r hr)
        (by simp only [List.map_cons, List.sum_cons] at hA; omega)
      rw [show A + (s.length + (t.map List.length).sum) =
        A + s.length + (t.map List.length).sum from by omega]
      exact h2

theorem dirInv_nil : DirInv 0 [] := by
  refine ⟨List.chain'_nil, List.chain'_nil, ?_, ?_, ?_⟩
  · intro e he
    simp [stream] at he
  · intro e he
    simp [stream] at he
  · intro p hp
    simp at hp

/-- The directory produced by any trace of sessions over an initially
empty directory satisfies the invariant, with the append bound the total
number of requests. -/
theorem runTrace_inv (maxFS maxSegs : Int) (sessions : List (List Req))
    (hwf : ∀ s ∈ sessions, ∀ r ∈ s, WfReq r)
    (hA : (sessions.map List.length).sum < 2 ^ 64) :
    DirInv ((sessions.map List.length).sum) (runTrace maxFS maxSegs sessions) := by
  have h := foldl_runSession_preserves maxFS maxSegs sessions 0 [] dirInv_nil hwf
    (by omega)
  simpa using h

theorem chain_lt_head (p : Nat × Bytes) (t : Dir)
    (h : List.Chain' (fun a b => a.1 < b.1) (p :: t)) : ∀ q ∈ t, p.1 < q.1 := by
  induction t generalizing p with
  | nil => simp
  | cons q t2 ih =>
      rw [List.chain'_cons] at h
      intro y hy
      rcases List.mem_cons.mp hy with rfl | hy2
      · exact h.1
      · exact lt_trans h.1 (ih q h.2 y hy2)

theorem pairwise_le_of_chain_lt (l : Dir)
    (h : List.Chain' (fun a b => a.1 < b.1) l) :
    List.Pairwise (fun a b => a.1 ≤ b.1) l := by
  induction l with
  | nil => exact List.Pairwise.nil
  | cons p t ih =>
      refine List.Pairwise.cons (fun q hq => le_of_lt (chain_lt_head p t h q hq)) ?_
      rw [List.chain'_cons'] at h
      exact ih h.2

/-- Reading back the on-disk bytes of an invariant directory returns
exactly its stream, in ascending-id order. -/
theorem ReadAll_encodeFDir (A : Nat) (segs : FDir) (hinv : DirInv A segs) :
    ReadAll (encodeFDir segs) = .ok (stream segs) := by
  obtain ⟨hchain, _, hgood, _, _⟩ := hinv
  have hchain2 : List.Chain' (fun a b => a.1 < b.1) (encodeFDir segs) := by
    rw [encodeFDir, List.chain'_map]
    exact hchain
  rw [ReadAll, sortSegmentFiles_of_sorted _ (pairwise_le_of_chain_lt _ hchain2)]
  have hf2 := forall2_encoded segs
    (fun p hp e he => hgood e (mem_stream_of_mem segs p e hp he))
  rw [show encodeFDir segs = segs.map fun q => (q.1, encodeStore q.2) from rfl]
  rw [readAllLoop_forall2 _ _ [] hf2]
  rw [List.nil_append]
  rfl

/-- Claim C6: across the full segment stream read back in ascending
segment-id order — including streams produced over any number of
Open/Append*/Close sessions of the same directory, with rotation and
retention at any configuration — the sequence numbers of the records are
strictly increasing, and `ReadAll` of the on-disk bytes returns exactly
the stream in on-disk order: on-disk record order equals sequence-number
order.  (Hypotheses: every request is machine-representable and the trace
makes fewer than `2^64` appends in total, so the `uint64` sequence counter
does not wrap.) -/
theorem claim_C6_stream_seq_monotone (maxFS maxSegs : Int)
    (sessions : List (List Req))
    (hwf : ∀ s ∈ sessions, ∀ r ∈ s, WfReq r)
    (hA : (sessions.map List.length).sum < 2 ^ 64) :
    List.Chain' (· < ·) (streamSeqs (runTrace maxFS maxSegs sessions)) ∧
    ReadAll (encodeFDir (runTrace maxFS maxSegs sessions)) =
      .ok (stream (runTrace maxFS maxSegs sessions)) := by
  have h := runTrace_inv maxFS maxSegs sessions hwf hA
  exact ⟨h.2.1, ReadAll_encodeFDir _ _ h⟩

/-- Claim C6 witness: a two-session trace with a 1-byte size bound (so
every append rotates) and retention bound 2. -/
theorem claim_C6_witness :
    (∀ s ∈ ([[⟨1, [107], [118], 0⟩, ⟨1, [108], [119], 5⟩],
             [⟨2, [107], [], 0⟩]] : List (List Req)), ∀ r ∈ s, WfReq r) ∧
    (((([[⟨1, [107], [118], 0⟩, ⟨1, [108], [119], 5⟩],
        [⟨2, [107], [], 0⟩]] : List (List Req)).map List.length).sum) < 2 ^ 64) ∧
    (List.Chain' (· < ·) (streamSeqs (runTrace 1 2
      [[⟨1, [107], [118], 0⟩, ⟨1, [108], [119], 5⟩], [⟨2, [107], [], 0⟩]])) ∧
    ReadAll (encodeFDir (runTrace 1 2
      [[⟨1, [107], [118], 0⟩, ⟨1, [108], [119], 5⟩], [⟨2, [107], [], 0⟩]])) =
      .ok (stream (runTrace 1 2
        [[⟨1, [107], [118], 0⟩, ⟨1, [108], [119], 5⟩], [⟨2, [107], [], 0⟩]]))) :=
  ⟨by decide, by decide,
    claim_C6_stream_seq_monotone 1 2
      [[⟨1, [107], [118], 0⟩, ⟨1, [108], [119], 5⟩], [⟨2, [107], [], 0⟩]]
      (by decide) (by decide)⟩

end KV
